import Mathlib

/-!
# A shallow embedding of the `balancer` package

This file embeds the worker-pool load balancer (package `balancer`,
`src/core/vm/contracts.go`, lines 204-342) in Lean 4 and proves properties
of the embedded code.

Modelling choices:
* Go slices become `List Worker`; index access is the total function `wAt`
  (the out-of-range default is never reached under the stated bounds).
* Go channels become lists of buffered values together with a capacity;
  a send that would block is `none`.
* The work callable `func() error` is modelled by the value it returns when
  executed (`none` = nil error, `some e` = the failure `e`); the balancer is
  agnostic to the computation itself.
* The routines of Go's `container/heap` (`up`, `down`, `Init`, `Push`,
  `Pop`, `Remove`), which the package calls, are embedded verbatim from the
  standard library's implementation.  The two loops `up`/`down` are written
  with an explicit fuel argument; the loop variable strictly decreases
  (resp. strictly increases below `n`), so the supplied fuel always reaches
  the loop's `break` and the embedding computes by structural recursion.
* Goroutine spawning is recorded explicitly: `New` returns the constructed
  balancer together with the list of goroutines it starts.
-/

namespace balancer

/-- Go `Task`: `fn func() error` and `c chan error`.  The callable is
modelled by the value it returns when run; the return channel is identified
by a channel id. -/
structure Task where
  fn : Option String
  c : Nat
deriving DecidableEq

/-- Go `Worker`: worker id, buffered `tasks` channel (modelled by its
queued contents), `pending` count (a Go `int`), and heap `index`. -/
structure Worker where
  id : Nat
  tasks : List Task
  pending : Int
  index : Nat
deriving DecidableEq

instance : Inhabited Worker := ⟨⟨0, [], 0, 0⟩⟩

/-- Total slice access `p[i]`. -/
def wAt : List Worker → Nat → Worker
  | [], _ => default
  | w :: _, 0 => w
  | _ :: p, k + 1 => wAt p k

/-- A worker with its heap-bookkeeping `index` field normalised; used to
state which multiset of workers a pool holds independently of heap layout. -/
def strip (w : Worker) : Worker := { w with index := 0 }

/-- The multiset (as a list) of workers held by a pool, up to heap layout. -/
def smap (p : List Worker) : List Worker := p.map strip

/-- The pending counts held by a pool. -/
def pends (p : List Worker) : List Int := p.map fun w => w.pending

/-- Parent position in the binary heap: Go's `(j - 1) / 2` (for `j = 0` Go
computes `-1/2 = 0`; Nat subtraction yields the same value). -/
def parent (j : Nat) : Nat := (j - 1) / 2

/-- `Pool.Less(i, j)`: `p[i].pending < p[j].pending`. -/
def less (p : List Worker) (i j : Nat) : Bool :=
  (wAt p i).pending < (wAt p j).pending

/-- `Pool.Swap(i, j)`: set `p[i].index = j`, `p[j].index = i`, then swap the
two positions. -/
def swapW (p : List Worker) (i j : Nat) : List Worker :=
  let wi := wAt p i
  let wj := wAt p j
  (p.set i { wj with index := i }).set j { wi with index := j }

/-- `container/heap.up(h, j)`.  Fuel: the position strictly decreases on
every iteration, so `j + 1` iterations always reach the `break`. -/
def upF (p : List Worker) (j : Nat) : Nat → List Worker
  | 0 => p
  | fuel + 1 =>
    let i := parent j
    if i = j ∨ less p j i = false then p
    else upF (swapW p i j) i fuel

/-- `container/heap.up(h, j)` with its fuel supplied. -/
def up (p : List Worker) (j : Nat) : List Worker := upF p j (j + 1)

/-- `container/heap.down(h, i, n)`.  Fuel: the position strictly increases
and stays below `n`, so `n` iterations always reach a `break`.  Returns the
final position as well (Go returns `i > i0`). -/
def downF (p : List Worker) (i n : Nat) : Nat → List Worker × Nat
  | 0 => (p, i)
  | fuel + 1 =>
    let j1 := 2 * i + 1
    if n ≤ j1 then (p, i)
    else
      let j := if j1 + 1 < n ∧ less p (j1 + 1) j1 = true then j1 + 1 else j1
      if less p j i = true then downF (swapW p i j) j n fuel else (p, i)

/-- `container/heap.down(h, i, n)` with its fuel supplied. -/
def downFrom (p : List Worker) (i n : Nat) : List Worker × Nat := downF p i n n

/-- The loop of `container/heap.Init`: `for i := n/2 - 1; i >= 0; i--`
running `down(h, i, n)`; `initLoopF p n k` processes positions
`k-1, ..., 0`. -/
def initLoopF (p : List Worker) (n : Nat) : Nat → List Worker
  | 0 => p
  | k + 1 => initLoopF (downFrom p k n).1 n k

/-- `container/heap.Init`. -/
def heapInit (p : List Worker) : List Worker :=
  initLoopF p p.length (p.length / 2)

/-- `Pool.Push`: append the worker, assigning it the new index. -/
def poolPush (p : List Worker) (w : Worker) : List Worker :=
  p ++ [{ w with index := p.length }]

/-- `container/heap.Push`: `h.Push(x); up(h, h.Len()-1)`; the new length is
`p.length + 1`, so the sift starts at `p.length`. -/
def heapPush (p : List Worker) (w : Worker) : List Worker :=
  up (poolPush p w) p.length

/-- `container/heap.Pop`: on an empty pool Go panics (`h.Swap(0, -1)` is out
of range), hence `none`; otherwise swap the root with the last element, sift
down on the prefix, and return the removed last element with the shrunk
pool (`Pool.Pop`). -/
def heapPop (p : List Worker) : Option (Worker × List Worker) :=
  if p.length = 0 then none
  else
    let n := p.length - 1
    let q := (downFrom (swapW p 0 n) 0 n).1
    some (wAt q n, q.take n)

/-- `container/heap.Remove(h, i)`: Go panics when `i` is out of range
(`h.Swap(i, n)`), hence `none`; for `i = n` it is just `Pool.Pop`, otherwise
swap `i` with the last element, sift down on the prefix and, if the element
did not move down, sift it up, then `Pool.Pop`. -/
def heapRemove (p : List Worker) (i : Nat) : Option (Worker × List Worker) :=
  if p.length ≤ i then none
  else
    let n := p.length - 1
    let q :=
      if i = n then p
      else
        let r := downFrom (swapW p i n) i n
        if i < r.2 then r.1 else up r.1 i
    some (wAt q n, q.take n)

/-- Go `Balancer`: the worker pool and its two channels (`done` carries
worker identities, `work` carries tasks), each with buffered contents and a
capacity. -/
structure Balancer where
  pool : List Worker
  done : List Nat
  work : List Task
  workCap : Nat
  doneCap : Nat
deriving DecidableEq

/-- `Balancer.dispatch(task)`: pop the least-loaded worker off the heap
(`none` when the pool is empty and the pop panics), send the task on that
worker's own `tasks` channel (capacity 5000; a blocked send delays but does
not change the effect, so it is modelled by the enqueue), increment its
pending count, and push it back onto the heap. -/
def dispatch (b : Balancer) (task : Task) : Option Balancer :=
  match heapPop b.pool with
  | none => none
  | some (w, p) =>
    let w1 := { w with tasks := w.tasks ++ [task] }
    let w2 := { w1 with pending := w1.pending + 1 }
    some { b with pool := heapPush p w2 }

/-- `Balancer.completed(w)`: `w.pending--`, then `heap.Remove(&b.pool,
w.index)`, then `heap.Push(&b.pool, w)`.  The worker argument `w` is
identified by the pool position `i` holding it; Go removes at the field
`w.index`, which the embedding reads off the decremented worker. -/
def completed (b : Balancer) (i : Nat) : Option Balancer :=
  if i < b.pool.length then
    let w := wAt b.pool i
    let w1 := { w with pending := w.pending - 1 }
    let p1 := b.pool.set i w1
    match heapRemove p1 w1.index with
    | some (_, p2) => some { b with pool := heapPush p2 w1 }
    | none => none
  else none

/-- `Balancer.Push(work)`: `b.work <- work`; `none` models the send
blocking on a full channel. -/
def Balancer.Push (b : Balancer) (t : Task) : Option Balancer :=
  if b.work.length < b.workCap then some { b with work := b.work ++ [t] }
  else none

/-- A channel name: the balancer's shared `work` channel, or the private
`tasks` channel of the worker with the given id. -/
inductive Chan where
  | work : Chan
  | tasks (wid : Nat) : Chan
deriving DecidableEq

/-- A spawned goroutine: a worker loop `worker.work(ch)` reading from the
channel it was started with, or the balance loop. -/
inductive Goroutine where
  | worker (wid : Nat) (src : Chan) : Goroutine
  | balance : Goroutine
deriving DecidableEq

/-- The pool built by `New`: `make(Pool, 0, poolSize)` (empty), then
`heap.Init`, then `heap.Push` of `&Worker{id: i, tasks: make(chan Task,
5000)}` for `i = 0, ..., n-1` (zero values: `pending = 0`, `index = 0`). -/
def newPool (n : Nat) : List Worker :=
  (List.range n).foldl (fun p i => heapPush p ⟨i, [], 0, 0⟩) (heapInit [])

/-- Go `New(poolSize)`, returning the balancer together with the goroutines
it spawns.  `make(chan T, c)` panics for negative `c`, hence `none` for a
negative size; there is no other validation.  Each worker goroutine is
started as `go worker.work(balancer.work)` — reading the shared `work`
channel — and the `go balancer.balance(balancer.work)` line is commented
out in the source, so no balance goroutine is spawned. -/
def New (poolSize : Int) : Option (Balancer × List Goroutine) :=
  if poolSize < 0 then none
  else
    let n := poolSize.toNat
    some ({ pool := newPool n, done := [], work := [],
            workCap := n * 10, doneCap := n },
          (List.range n).map fun i => Goroutine.worker i Chan.work)

/-- System state: the balancer, the goroutines spawned so far, and the
outcomes delivered so far (pairs of a return-channel id and the value sent
on it). -/
structure Sys where
  bal : Balancer
  gs : List Goroutine
  delivered : List (Nat × Option String)
deriving DecidableEq

/-- Pop the head of the `tasks` channel of the worker with the given id. -/
def popTaskOf : List Worker → Nat → Option (Task × List Worker)
  | [], _ => none
  | w :: p, wid =>
    if w.id = wid then
      match w.tasks with
      | [] => none
      | t :: ts => some (t, { w with tasks := ts } :: p)
    else
      match popTaskOf p wid with
      | some (t, p2) => some (t, w :: p2)
      | none => none

/-- Receive from a channel: `none` when the channel is empty (the receiver
suspends). -/
def readChan (s : Sys) : Chan → Option (Task × Sys)
  | Chan.work =>
    match s.bal.work with
    | [] => none
    | t :: r => some (t, { s with bal := { s.bal with work := r } })
  | Chan.tasks wid =>
    match popTaskOf s.bal.pool wid with
    | some (t, p2) => some (t, { s with bal := { s.bal with pool := p2 } })
    | none => none

/-- One iteration of `Worker.work`: receive a task from the channel the
goroutine was started with and execute `task.c <- task.fn()`.  The
`done <- w` completion signal is commented out in the source, so nothing is
written to `done`. -/
def workerStep (g : Goroutine) (s : Sys) : Option Sys :=
  match g with
  | Goroutine.balance => none
  | Goroutine.worker _ src =>
    if g ∈ s.gs then
      match readChan s src with
      | some (t, s2) =>
        some { s2 with delivered := s2.delivered ++ [(t.c, t.fn)] }
      | none => none
    else none

/-- An event of a system run: a `Balancer.Push` by a submitter, or one
iteration of a spawned worker loop. -/
inductive Ev where
  | push (t : Task) : Ev
  | wstep (g : Goroutine) : Ev
deriving DecidableEq

/-- Lift `Balancer.Push` to the system state. -/
def sysPush (s : Sys) (t : Task) : Option Sys :=
  match s.bal.Push t with
  | some b2 => some { s with bal := b2 }
  | none => none

/-- Execute one event. -/
def runEv (s : Sys) : Ev → Option Sys
  | Ev.push t => sysPush s t
  | Ev.wstep g => workerStep g s

/-- Execute a trace of events; `none` when some event cannot fire. -/
def run (s : Sys) : List Ev → Option Sys
  | [] => some s
  | e :: es =>
    match runEv s e with
    | some s2 => run s2 es
    | none => none

/-- Keep running iterations of worker `wid`'s loop (which reads the shared
`work` channel) until the work queue is empty; every iteration shortens the
queue by one, so `s.bal.work.length` iterations suffice. -/
def drainF (wid : Nat) : Nat → Sys → Sys
  | 0, s => s
  | f + 1, s =>
    match workerStep (Goroutine.worker wid Chan.work) s with
    | some s2 => drainF wid f s2
    | none => s

/-- Drain the shared work queue through worker `wid`'s loop. -/
def drain (wid : Nat) (s : Sys) : Sys := drainF wid s.bal.work.length s

/-- Iterate `Balancer.dispatch` over a list of tasks. -/
def dispatchN (b : Balancer) : List Task → Option Balancer
  | [] => some b
  | t :: ts =>
    match dispatch b t with
    | some b2 => dispatchN b2 ts
    | none => none

/-- How many times a given task was pushed during a trace. -/
def countPush (tr : List Ev) (t : Task) : Nat := tr.count (Ev.push t)

/-- How many outcomes have been delivered for a given task (on its return
channel, with its callable's value). -/
def countDelivered (s : Sys) (t : Task) : Nat := s.delivered.count (t.c, t.fn)

/-- Min-heap order on the prefix `[0, n)`: every non-root position is at
least its parent in pending count. -/
def HeapB (p : List Worker) (n : Nat) : Prop :=
  ∀ k, k < n → 0 < k → (wAt p (parent k)).pending ≤ (wAt p k).pending

/-- Min-heap order on the whole pool. -/
def HeapD (p : List Worker) : Prop := HeapB p p.length

/-- Index consistency: the worker stored at position `k` has `index = k`
(the slice form of `pool[w.index] == w`). -/
def IdxB (p : List Worker) : Prop :=
  ∀ k, k < p.length → (wAt p k).index = k

instance (p : List Worker) (n : Nat) : Decidable (HeapB p n) :=
  inferInstanceAs (Decidable (∀ k, k < n → 0 < k → _ ≤ _))

instance (p : List Worker) : Decidable (HeapD p) :=
  inferInstanceAs (Decidable (HeapB p p.length))

instance (p : List Worker) : Decidable (IdxB p) :=
  inferInstanceAs (Decidable (∀ k, k < p.length → _ = _))

/-- One reaction of the balance loop: dispatch an ingress task or handle a
completion signal for the worker at pool position `i`. -/
inductive Step : Balancer → Balancer → Prop where
  | disp (b b2 : Balancer) (t : Task) : dispatch b t = some b2 → Step b b2
  | comp (b b2 : Balancer) (i : Nat) : completed b i = some b2 → Step b b2

/-- Balancer states reachable from a given state by dispatch/completion
steps. -/
def Reach (b b2 : Balancer) : Prop := Relation.ReflTransGen Step b b2

/-- Pending count at a pool position. -/
def wp (p : List Worker) (i : Nat) : Int := (wAt p i).pending

/-! ## Basic lemmas about `wAt`, `List.set`, and `swapW` -/

@[simp] theorem wAt_nil (i : Nat) : wAt [] i = default := by cases i <;> rfl

@[simp] theorem wAt_zero (w : Worker) (p : List Worker) : wAt (w :: p) 0 = w := rfl

@[simp] theorem wAt_succ (w : Worker) (p : List Worker) (k : Nat) :
    wAt (w :: p) (k + 1) = wAt p k := rfl

theorem wAt_of_length_le : ∀ (p : List Worker) (i : Nat), p.length ≤ i → wAt p i = default
  | [], _, _ => by simp
  | _ :: p, i + 1, h => wAt_of_length_le p i (Nat.le_of_succ_le_succ h)

theorem wAt_set_self : ∀ (p : List Worker) (i : Nat) (w : Worker), i < p.length →
    wAt (p.set i w) i = w
  | _ :: _, 0, _, _ => rfl
  | _ :: p, i + 1, w, h => wAt_set_self p i w (Nat.lt_of_succ_lt_succ h)

theorem wAt_set_ne : ∀ (p : List Worker) (i j : Nat) (w : Worker), i ≠ j →
    wAt (p.set i w) j = wAt p j
  | [], _, _, _, _ => rfl
  | _ :: _, 0, 0, _, h => absurd rfl h
  | _ :: _, 0, _ + 1, _, _ => rfl
  | _ :: _, _ + 1, 0, _, _ => rfl
  | _ :: p, i + 1, j + 1, w, h =>
    wAt_set_ne p i j w (fun e => h (congrArg Nat.succ e))

theorem set_wAt_self : ∀ (p : List Worker) (i : Nat), p.set i (wAt p i) = p
  | [], _ => rfl
  | _ :: _, 0 => rfl
  | w :: p, i + 1 => congrArg (w :: ·) (set_wAt_self p i)

theorem wAt_append_lt : ∀ (p q : List Worker) (i : Nat), i < p.length →
    wAt (p ++ q) i = wAt p i
  | _ :: _, _, 0, _ => rfl
  | _ :: p, q, i + 1, h => wAt_append_lt p q i (Nat.lt_of_succ_lt_succ h)

theorem wAt_append_self : ∀ (p : List Worker) (w : Worker), wAt (p ++ [w]) p.length = w
  | [], _ => rfl
  | _ :: p, w => wAt_append_self p w

theorem wAt_take : ∀ (p : List Worker) (n i : Nat), i < n →
    wAt (p.take n) i = wAt p i
  | [], _, _, _ => by simp
  | _ :: _, _ + 1, 0, _ => rfl
  | _ :: p, n + 1, i + 1, h => wAt_take p n i (Nat.lt_of_succ_lt_succ h)

theorem eq_take_append_last : ∀ (p : List Worker) (n : Nat), p.length = n + 1 →
    p = p.take n ++ [wAt p n]
  | [_], 0, _ => rfl
  | w :: x :: p, n + 1, h =>
    congrArg (w :: ·) (eq_take_append_last (x :: p) n (Nat.succ_injective h))

theorem wAt_map_strip (p : List Worker) (i : Nat) : wAt (smap p) i = strip (wAt p i) := by
  induction p generalizing i with
  | nil => cases i <;> rfl
  | cons w p ih => cases i with
    | zero => rfl
    | succ k => exact ih k

theorem length_smap (p : List Worker) : (smap p).length = p.length := List.length_map ..

theorem wAt_cons_set_perm : ∀ (l : List Worker) (k : Nat) (w : Worker), k < l.length →
    List.Perm (wAt l k :: l.set k w) (w :: l)
  | x :: r, 0, w, _ => List.Perm.swap w x r
  | x :: r, k + 1, w, h => by
    have ih := wAt_cons_set_perm r k w (Nat.lt_of_succ_lt_succ h)
    exact ((List.Perm.swap x (wAt r k) (r.set k w)).trans
      ((ih.cons x).trans (List.Perm.swap w x r)))

theorem set_set_perm (p : List Worker) (i j : Nat) (hi : i < p.length)
    (hj : j < p.length) : List.Perm ((p.set i (wAt p j)).set j (wAt p i)) p := by
  induction p generalizing i j with
  | nil => exact absurd hi (Nat.not_lt_zero i)
  | cons w tl ih =>
    cases i with
    | zero =>
      cases j with
      | zero => simp
      | succ b =>
        have hb : b < tl.length := Nat.lt_of_succ_lt_succ hj
        simpa using wAt_cons_set_perm tl b w hb
    | succ a =>
      cases j with
      | zero =>
        have ha : a < tl.length := Nat.lt_of_succ_lt_succ hi
        simpa using wAt_cons_set_perm tl a w ha
      | succ b =>
        exact (ih a b (Nat.lt_of_succ_lt_succ hi) (Nat.lt_of_succ_lt_succ hj)).cons w

theorem length_swapW (p : List Worker) (i j : Nat) :
    (swapW p i j).length = p.length := by
  simp [swapW]

theorem wAt_swapW_right (p : List Worker) (i j : Nat) (hj : j < p.length) :
    wAt (swapW p i j) j = { wAt p i with index := j } := by
  unfold swapW
  exact wAt_set_self _ j _ (by simpa using hj)

theorem wAt_swapW_left (p : List Worker) (i j : Nat) (hi : i < p.length) (hij : i ≠ j) :
    wAt (swapW p i j) i = { wAt p j with index := i } := by
  unfold swapW
  rw [wAt_set_ne _ j i _ (Ne.symm hij)]
  exact wAt_set_self _ i _ hi

theorem wAt_swapW_other (p : List Worker) (i j k : Nat) (hki : k ≠ i) (hkj : k ≠ j) :
    wAt (swapW p i j) k = wAt p k := by
  unfold swapW
  rw [wAt_set_ne _ j k _ (Ne.symm hkj), wAt_set_ne _ i k _ (Ne.symm hki)]

theorem smap_swapW (p : List Worker) (i j : Nat) (hi : i < p.length)
    (hj : j < p.length) : List.Perm (smap (swapW p i j)) (smap p) := by
  have h1 : smap (swapW p i j)
      = ((smap p).set i (strip (wAt p j))).set j (strip (wAt p i)) := by
    unfold swapW smap
    rw [List.map_set, List.map_set]
    rfl
  rw [h1, show strip (wAt p j) = wAt (smap p) j from (wAt_map_strip p j).symm,
    show strip (wAt p i) = wAt (smap p) i from (wAt_map_strip p i).symm]
  exact set_set_perm (smap p) i j (by simpa [smap] using hi) (by simpa [smap] using hj)

/-! ## Arithmetic facts about `parent` and the comparison `less` -/

theorem parent_lt {j : Nat} (h : 0 < j) : parent j < j := by
  unfold parent; omega

theorem parent_eq_self_iff {j : Nat} : parent j = j ↔ j = 0 := by
  unfold parent; omega

theorem parent_two_mul_add_one (i : Nat) : parent (2 * i + 1) = i := by
  unfold parent; omega

theorem parent_two_mul_add_two (i : Nat) : parent (2 * i + 2) = i := by
  unfold parent; omega

theorem child_of_parent {k i : Nat} (h0 : 0 < k) (h : parent k = i) :
    k = 2 * i + 1 ∨ k = 2 * i + 2 := by
  unfold parent at h; omega

theorem less_eq_true_iff (p : List Worker) (i j : Nat) :
    less p i j = true ↔ wp p i < wp p j := by
  simp [less, wp]

theorem less_eq_false_iff (p : List Worker) (i j : Nat) :
    less p i j = false ↔ wp p j ≤ wp p i := by
  simp [less, wp]

theorem wp_swapW_right (p : List Worker) (i j : Nat) (hj : j < p.length) :
    wp (swapW p i j) j = wp p i := by
  simp [wp, wAt_swapW_right p i j hj]

theorem wp_swapW_left (p : List Worker) (i j : Nat) (hi : i < p.length) (hij : i ≠ j) :
    wp (swapW p i j) i = wp p j := by
  simp [wp, wAt_swapW_left p i j hi hij]

theorem wp_swapW_other (p : List Worker) (i j k : Nat) (hki : k ≠ i) (hkj : k ≠ j) :
    wp (swapW p i j) k = wp p k := by
  simp [wp, wAt_swapW_other p i j k hki hkj]

theorem idxB_swapW (p : List Worker) (i j : Nat) (hi : i < p.length)
    (hj : j < p.length) (h : IdxB p) : IdxB (swapW p i j) := by
  intro k hk
  rw [length_swapW] at hk
  rcases eq_or_ne k j with rfl | hkj
  · rw [wAt_swapW_right p i k hj]
  · rcases eq_or_ne k i with rfl | hki
    · rw [wAt_swapW_left p k j hi (fun e => hkj e)]
    · rw [wAt_swapW_other p i j k hki hkj]; exact h k hk

/-! ## Correctness of `container/heap.up` -/

/-- Bundled specification of the sift-up loop: under the almost-heap
precondition (order holds at every non-root position of `[0, n)` other than
`j`, and `j`'s prospective children are already at least `j`'s parent),
sifting up from `j` preserves length, positions above `j`, the worker
multiset and index consistency, and restores heap order on `[0, n)`. -/
theorem upF_spec : ∀ (fuel : Nat) (p : List Worker) (j n : Nat),
    j < fuel → j < n → n ≤ p.length →
    (∀ k, k < n → 0 < k → k ≠ j → wp p (parent k) ≤ wp p k) →
    (∀ k, k < n → parent k = j → 0 < j → wp p (parent j) ≤ wp p k) →
    (upF p j fuel).length = p.length ∧
    (∀ k, j < k → wAt (upF p j fuel) k = wAt p k) ∧
    List.Perm (smap (upF p j fuel)) (smap p) ∧
    (IdxB p → IdxB (upF p j fuel)) ∧
    HeapB (upF p j fuel) n
  | 0, _, j, _, hfuel, _, _, _, _ => absurd hfuel (Nat.not_lt_zero j)
  | fuel + 1, p, j, n, hfuel, hjn, hn, H1, H2 => by
    have hunf : upF p j (fuel + 1)
        = if parent j = j ∨ less p j (parent j) = false then p
          else upF (swapW p (parent j) j) (parent j) fuel := rfl
    by_cases hc : parent j = j ∨ less p j (parent j) = false
    · rw [hunf, if_pos hc]
      refine ⟨rfl, fun _ _ => rfl, List.Perm.refl _, fun h => h, ?_⟩
      intro k hk h0
      rcases eq_or_ne k j with hkj | hkj
      · rcases hc with hc1 | hc1
        · exact absurd (parent_eq_self_iff.mp hc1) (by omega)
        · rw [hkj]; exact (less_eq_false_iff p j (parent j)).mp hc1
      · exact H1 k hk h0 hkj
    · rw [hunf, if_neg hc]
      push_neg at hc
      obtain ⟨hpj, hless⟩ := hc
      have hlesst : less p j (parent j) = true := by
        cases h : less p j (parent j) with
        | false => exact absurd h hless
        | true => rfl
      have hlt : wp p j < wp p (parent j) := (less_eq_true_iff p j (parent j)).mp hlesst
      have hj0 : 0 < j := Nat.pos_of_ne_zero (fun e => hpj (by rw [e]; rfl))
      have hij : parent j < j := parent_lt hj0
      have hin : parent j < n := lt_trans hij hjn
      have hilen : parent j < p.length := lt_of_lt_of_le hin hn
      have hjlen : j < p.length := lt_of_lt_of_le hjn hn
      have hne : parent j ≠ j := Nat.ne_of_lt hij
      have H1' : ∀ k, k < n → 0 < k → k ≠ parent j →
          wp (swapW p (parent j) j) (parent k) ≤ wp (swapW p (parent j) j) k := by
        intro k hk h0 hki
        rcases eq_or_ne k j with hkj | hkj
        · rw [hkj, wp_swapW_left p (parent j) j hilen hne,
            wp_swapW_right p (parent j) j hjlen]
          exact le_of_lt hlt
        · have hkval : wp (swapW p (parent j) j) k = wp p k :=
            wp_swapW_other p (parent j) j k hki hkj
          rcases eq_or_ne (parent k) (parent j) with hpk | hpk
          · rw [hpk, wp_swapW_left p (parent j) j hilen hne, hkval]
            have h2 : wp p (parent j) ≤ wp p k := by
              have := H1 k hk h0 hkj; rwa [hpk] at this
            exact le_of_lt (lt_of_lt_of_le hlt h2)
          · rcases eq_or_ne (parent k) j with hpkj | hpkj
            · rw [hpkj, wp_swapW_right p (parent j) j hjlen, hkval]
              exact H2 k hk hpkj hj0
            · rw [wp_swapW_other p (parent j) j (parent k) hpk hpkj, hkval]
              exact H1 k hk h0 hkj
      have H2' : ∀ k, k < n → parent k = parent j → 0 < parent j →
          wp (swapW p (parent j) j) (parent (parent j))
            ≤ wp (swapW p (parent j) j) k := by
        intro k hk hpk hi0
        have hpi : parent (parent j) < parent j := parent_lt hi0
        rw [wp_swapW_other p (parent j) j (parent (parent j))
          (Nat.ne_of_lt hpi) (Nat.ne_of_lt (lt_trans hpi hij))]
        rcases eq_or_ne k j with hkj | hkj
        · rw [hkj, wp_swapW_right p (parent j) j hjlen]
          exact H1 (parent j) hin hi0 hne
        · have hki : k ≠ parent j := by
            intro e
            rw [e] at hpk
            exact absurd (parent_eq_self_iff.mp hpk) (by omega)
          have h0k : 0 < k := by
            rcases Nat.eq_zero_or_pos k with rfl | h
            · exact absurd hpk.symm (by simpa [parent] using (by omega : parent j ≠ 0))
            · exact h
          rw [wp_swapW_other p (parent j) j k hki hkj]
          have h2 : wp p (parent j) ≤ wp p k := by
            have := H1 k hk h0k hkj; rwa [hpk] at this
          exact le_trans (H1 (parent j) hin hi0 hne) h2
      have hifuel : parent j < fuel := lt_of_lt_of_le hij (Nat.lt_succ_iff.mp hfuel)
      have hlen' : n ≤ (swapW p (parent j) j).length := by
        rw [length_swapW]; exact hn
      obtain ⟨ihlen, ihun, ihperm, ihidx, ihheap⟩ :=
        upF_spec fuel (swapW p (parent j) j) (parent j) n hifuel hin hlen' H1' H2'
      refine ⟨by rw [ihlen, length_swapW], ?_,
        ihperm.trans (smap_swapW p (parent j) j hilen hjlen),
        fun h0 => ihidx (idxB_swapW p (parent j) j hilen hjlen h0), ihheap⟩
      intro k hk
      rw [ihun k (lt_trans hij hk), wAt_swapW_other p (parent j) j k
        (Nat.ne_of_gt (lt_trans hij hk)) (Nat.ne_of_gt hk)]

/-- `up` applied with its canonical fuel. -/
theorem up_spec (p : List Worker) (j n : Nat) (hjn : j < n) (hn : n ≤ p.length)
    (H1 : ∀ k, k < n → 0 < k → k ≠ j → wp p (parent k) ≤ wp p k)
    (H2 : ∀ k, k < n → parent k = j → 0 < j → wp p (parent j) ≤ wp p k) :
    (up p j).length = p.length ∧
    (∀ k, j < k → wAt (up p j) k = wAt p k) ∧
    List.Perm (smap (up p j)) (smap p) ∧
    (IdxB p → IdxB (up p j)) ∧
    HeapB (up p j) n :=
  upF_spec (j + 1) p j n (Nat.lt_succ_self j) hjn hn H1 H2

theorem length_poolPush (p : List Worker) (w : Worker) :
    (poolPush p w).length = p.length + 1 := by
  simp [poolPush]

theorem wAt_poolPush_lt (p : List Worker) (w : Worker) (k : Nat) (hk : k < p.length) :
    wAt (poolPush p w) k = wAt p k :=
  wAt_append_lt p _ k hk

theorem wAt_poolPush_self (p : List Worker) (w : Worker) :
    wAt (poolPush p w) p.length = { w with index := p.length } :=
  wAt_append_self p _

theorem idxB_poolPush (p : List Worker) (w : Worker) (h : IdxB p) :
    IdxB (poolPush p w) := by
  intro k hk
  rw [length_poolPush] at hk
  rcases Nat.lt_succ_iff_lt_or_eq.mp hk with hk' | rfl
  · rw [wAt_poolPush_lt p w k hk']; exact h k hk'
  · rw [wAt_poolPush_self]

theorem smap_poolPush (p : List Worker) (w : Worker) :
    smap (poolPush p w) = smap p ++ [strip w] := by
  simp [smap, poolPush, strip]

/-- Specification of `container/heap.Push`: it preserves heap order and
index consistency, grows the pool by one, and adds exactly the pushed
worker to the pool's contents. -/
theorem heapPush_spec (p : List Worker) (w : Worker) (hheap : HeapD p) (hidx : IdxB p) :
    (heapPush p w).length = p.length + 1 ∧
    HeapD (heapPush p w) ∧
    IdxB (heapPush p w) ∧
    List.Perm (smap (heapPush p w)) (strip w :: smap p) := by
  have hlen : (poolPush p w).length = p.length + 1 := length_poolPush p w
  have H1 : ∀ k, k < p.length + 1 → 0 < k → k ≠ p.length →
      wp (poolPush p w) (parent k) ≤ wp (poolPush p w) k := by
    intro k hk h0 hkl
    have hk' : k < p.length := by omega
    have hpk : parent k < p.length := lt_trans (parent_lt h0) hk'
    unfold wp
    rw [wAt_poolPush_lt p w k hk', wAt_poolPush_lt p w (parent k) hpk]
    exact hheap k hk' h0
  have H2 : ∀ k, k < p.length + 1 → parent k = p.length → 0 < p.length →
      wp (poolPush p w) (parent p.length) ≤ wp (poolPush p w) k := by
    intro k hk hpk h0
    exfalso
    unfold parent at hpk
    omega
  obtain ⟨hl, _, hperm, hidx', hheap'⟩ :=
    up_spec (poolPush p w) p.length (p.length + 1) (by omega) (by omega) H1 H2
  refine ⟨by rw [heapPush, hl, hlen], ?_, hidx' (idxB_poolPush p w hidx), ?_⟩
  · unfold HeapD
    rw [show (heapPush p w).length = p.length + 1 from by rw [heapPush, hl, hlen]]
    exact hheap'
  · refine hperm.trans ?_
    rw [smap_poolPush]
    exact List.perm_append_singleton _ _

/-! ## Correctness of `container/heap.down` -/

/-- Bundled specification of the sift-down loop on the prefix `[0, n)`.
Preconditions: heap order holds at every non-root position of `[0, n)` not
incident to `i` (neither the position itself nor a child of `i`), and `i`'s
children are already at least `i`'s parent.  Conclusions: length, positions
outside `(i, n)`, the worker multiset and index consistency are preserved;
the final position stays in `[i, n)`; when additionally the edge into `i`
holds, or whenever the element moved down, heap order on `[0, n)` is fully
restored; and when the element did not move the list is unchanged and the
edges from `i` to its children hold. -/
theorem downF_spec : ∀ (fuel : Nat) (p : List Worker) (i n : Nat),
    n ≤ p.length → i < n → n - i ≤ fuel →
    (∀ k, k < n → 0 < k → k ≠ i → parent k ≠ i → wp p (parent k) ≤ wp p k) →
    (∀ k, k < n → parent k = i → 0 < i → wp p (parent i) ≤ wp p k) →
    (downF p i n fuel).1.length = p.length ∧
    (∀ k, n ≤ k → wAt (downF p i n fuel).1 k = wAt p k) ∧
    (∀ k, k < i → wAt (downF p i n fuel).1 k = wAt p k) ∧
    List.Perm (smap (downF p i n fuel).1) (smap p) ∧
    (IdxB p → IdxB (downF p i n fuel).1) ∧
    (i ≤ (downF p i n fuel).2 ∧ (downF p i n fuel).2 < n) ∧
    ((0 < i → wp p (parent i) ≤ wp p i) → HeapB (downF p i n fuel).1 n) ∧
    ((downF p i n fuel).2 = i → (downF p i n fuel).1 = p ∧
      ∀ k, k < n → parent k = i → wp p i ≤ wp p k) ∧
    (i < (downF p i n fuel).2 → HeapB (downF p i n fuel).1 n)
  | 0, _, i, n, _, hin, hfuel, _, _ => by omega
  | fuel + 1, p, i, n, hn, hin, hfuel, H1, H2 => by
    by_cases hA : n ≤ 2 * i + 1
    · have hunf : downF p i n (fuel + 1) = (p, i) := by
        simp only [downF]
        rw [if_pos hA]
      rw [hunf]
      have childLarge : ∀ k, k < n → parent k = i → 0 < k → False := by
        intro k hk hpk h0
        rcases child_of_parent h0 hpk with rfl | rfl <;> omega
      have childrenOK : ∀ k, k < n → parent k = i → wp p i ≤ wp p k := by
        intro k hk hpk
        rcases Nat.eq_zero_or_pos k with rfl | h0
        · have hi0 : i = 0 := by unfold parent at hpk; omega
          rw [hi0]
        · exact (childLarge k hk hpk h0).elim
      refine ⟨rfl, fun _ _ => rfl, fun _ _ => rfl, List.Perm.refl _, fun h => h,
        ⟨le_refl i, hin⟩, ?_, fun _ => ⟨rfl, childrenOK⟩, fun h => absurd h (lt_irrefl i)⟩
      intro hEdge k hk h0
      rcases eq_or_ne k i with rfl | hki
      · exact hEdge h0
      · rcases eq_or_ne (parent k) i with hpk | hpk
        · exact hpk ▸ childrenOK k hk hpk
        · exact H1 k hk h0 hki hpk
    · push_neg at hA
      set jj := if 2 * i + 1 + 1 < n ∧ less p (2 * i + 1 + 1) (2 * i + 1) = true
        then 2 * i + 1 + 1 else 2 * i + 1 with hjjdef
      have hunf : downF p i n (fuel + 1)
          = if less p jj i = true then downF (swapW p i jj) jj n fuel
            else (p, i) := by
        simp only [downF]
        rw [if_neg (by omega : ¬ n ≤ 2 * i + 1)]
      have hj_or : jj = 2 * i + 1 ∨ jj = 2 * i + 1 + 1 := by
        rw [hjjdef]
        by_cases hs : 2 * i + 1 + 1 < n ∧ less p (2 * i + 1 + 1) (2 * i + 1) = true
        · rw [if_pos hs]; right; rfl
        · rw [if_neg hs]; left; rfl
      have hjn' : jj < n := by
        rw [hjjdef]
        by_cases hs : 2 * i + 1 + 1 < n ∧ less p (2 * i + 1 + 1) (2 * i + 1) = true
        · rw [if_pos hs]; exact hs.1
        · rw [if_neg hs]; exact hA
      have hij : i < jj := by omega
      have hparj : parent jj = i := by
        rcases hj_or with h | h <;> rw [h] <;> unfold parent <;> omega
      have hmin : ∀ k, k < n → parent k = i → 0 < k → wp p jj ≤ wp p k := by
        intro k hk hpk h0
        by_cases hs : 2 * i + 1 + 1 < n ∧ less p (2 * i + 1 + 1) (2 * i + 1) = true
        · have hjv : jj = 2 * i + 1 + 1 := by rw [hjjdef, if_pos hs]
          have hlt2 : wp p (2 * i + 1 + 1) < wp p (2 * i + 1) :=
            (less_eq_true_iff p _ _).mp hs.2
          rcases child_of_parent h0 hpk with rfl | rfl
          · rw [hjv]; exact le_of_lt hlt2
          · rw [hjv]
        · have hjv : jj = 2 * i + 1 := by rw [hjjdef, if_neg hs]
          rcases child_of_parent h0 hpk with rfl | rfl
          · rw [hjv]
          · have h2n : 2 * i + 1 + 1 < n := by omega
            have hles : less p (2 * i + 1 + 1) (2 * i + 1) = false := by
              cases hb : less p (2 * i + 1 + 1) (2 * i + 1) with
              | false => rfl
              | true => exact absurd ⟨h2n, hb⟩ hs
            rw [hjv]
            exact (less_eq_false_iff p _ _).mp hles
      have hjlen : jj < p.length := lt_of_lt_of_le hjn' hn
      have hilen : i < p.length := lt_of_lt_of_le hin hn
      have hne : i ≠ jj := Nat.ne_of_lt hij
      by_cases hlt : less p jj i = true
      · -- the element sinks: swap with the chosen child and recurse
        have hltv : wp p jj < wp p i := (less_eq_true_iff p jj i).mp hlt
        have H1n : ∀ k, k < n → 0 < k → k ≠ jj → parent k ≠ jj →
            wp (swapW p i jj) (parent k) ≤ wp (swapW p i jj) k := by
          intro k hk h0 hkj hpkj
          rcases eq_or_ne k i with rfl | hki
          · have hpi : parent k < k := parent_lt h0
            rw [wp_swapW_other p k jj (parent k) (Nat.ne_of_lt hpi)
                (Nat.ne_of_lt (lt_trans hpi hij)),
              wp_swapW_left p k jj hilen hne]
            exact H2 jj hjn' hparj h0
          · rcases eq_or_ne (parent k) i with hpk | hpk
            · have h1 : wp (swapW p i jj) k = wp p k := wp_swapW_other p i jj k hki hkj
              rw [hpk, wp_swapW_left p i jj hilen hne, h1]
              exact hmin k hk hpk h0
            · rw [wp_swapW_other p i jj (parent k) hpk hpkj,
                wp_swapW_other p i jj k hki hkj]
              exact H1 k hk h0 hki hpk
        have H2n : ∀ k, k < n → parent k = jj → 0 < jj →
            wp (swapW p i jj) (parent jj) ≤ wp (swapW p i jj) k := by
          intro k hk hpk hj0
          have h0k : 0 < k := by
            rcases Nat.eq_zero_or_pos k with rfl | h
            · unfold parent at hpk; omega
            · exact h
          have hkgt : jj < k := hpk ▸ parent_lt h0k
          rw [hparj, wp_swapW_left p i jj hilen hne,
            wp_swapW_other p i jj k (by omega) (by omega)]
          have := H1 k hk h0k (by omega) (by rw [hpk]; omega)
          rwa [hpk] at this
        have hfuel' : n - jj ≤ fuel := by omega
        obtain ⟨ihlen, ihhigh, ihlow, ihperm, ihidx, ihpos, ihedge, ihnomove, ihmove⟩ :=
          downF_spec fuel (swapW p i jj) jj n (by rw [length_swapW]; exact hn)
            hjn' hfuel' H1n H2n
        have hEdge : 0 < jj → wp (swapW p i jj) (parent jj) ≤ wp (swapW p i jj) jj := by
          intro _
          rw [hparj, wp_swapW_left p i jj hilen hne, wp_swapW_right p i jj hjlen]
          exact le_of_lt hltv
        have hheapRes : HeapB (downF (swapW p i jj) jj n fuel).1 n := ihedge hEdge
        rw [hunf, if_pos hlt]
        refine ⟨by rw [ihlen, length_swapW], ?_, ?_, ?_, ?_, ?_, fun _ => hheapRes,
          ?_, fun _ => hheapRes⟩
        · intro k hk
          rw [ihhigh k hk, wAt_swapW_other p i jj k (by omega) (by omega)]
        · intro k hk
          rw [ihlow k (by omega), wAt_swapW_other p i jj k (by omega) (by omega)]
        · exact ihperm.trans (smap_swapW p i jj hilen hjlen)
        · intro h
          exact ihidx (idxB_swapW p i jj hilen hjlen h)
        · exact ⟨by omega, ihpos.2⟩
        · intro h
          exact absurd h (by omega)
      · -- the break: the chosen child is not smaller, so the loop stops
        have hunf2 : downF p i n (fuel + 1) = (p, i) := by rw [hunf, if_neg hlt]
        have hge : wp p i ≤ wp p jj := by
          have hles : less p jj i = false := by
            cases hb : less p jj i with
            | false => rfl
            | true => exact absurd hb hlt
          exact (less_eq_false_iff p jj i).mp hles
        have childrenOK : ∀ k, k < n → parent k = i → wp p i ≤ wp p k := by
          intro k hk hpk
          rcases Nat.eq_zero_or_pos k with rfl | h0
          · have hi0 : i = 0 := by unfold parent at hpk; omega
            rw [hi0]
          · exact le_trans hge (hmin k hk hpk h0)
        rw [hunf2]
        refine ⟨rfl, fun _ _ => rfl, fun _ _ => rfl, List.Perm.refl _, fun h => h,
          ⟨le_refl i, hin⟩, ?_, fun _ => ⟨rfl, childrenOK⟩,
          fun h => absurd h (lt_irrefl i)⟩
        intro hEdge k hk h0
        rcases eq_or_ne k i with rfl | hki
        · exact hEdge h0
        · rcases eq_or_ne (parent k) i with hpk | hpk
          · exact hpk ▸ childrenOK k hk hpk
          · exact H1 k hk h0 hki hpk

/-- In a heap-ordered prefix the root is minimal. -/
theorem heapB_root_le (p : List Worker) (n : Nat) (h : HeapB p n) :
    ∀ k, k < n → wp p 0 ≤ wp p k := by
  intro k
  induction k using Nat.strong_induction_on with
  | _ k ih =>
    intro hk
    rcases Nat.eq_zero_or_pos k with rfl | h0
    · exact le_refl _
    · exact le_trans (ih (parent k) (parent_lt h0) (lt_trans (parent_lt h0) hk))
        (h k hk h0)

theorem length_take_of_le {p : List Worker} {n : Nat} (h : n ≤ p.length) :
    (p.take n).length = n := by
  simp [Nat.min_eq_left h]

theorem heapD_nil : HeapD ([] : List Worker) := by
  intro k hk h0
  exact absurd hk (by simp)

theorem idxB_nil : IdxB ([] : List Worker) := by
  intro k hk
  exact absurd hk (by simp)

theorem heapD_take (p : List Worker) (n : Nat) (hn : n ≤ p.length)
    (h : HeapB p n) : HeapD (p.take n) := by
  intro k hk h0
  rw [length_take_of_le hn] at hk
  rw [wAt_take p n k hk, wAt_take p n (parent k) (lt_trans (parent_lt h0) hk)]
  exact h k hk h0

theorem idxB_take (p : List Worker) (n : Nat) (hn : n ≤ p.length)
    (h : IdxB p) : IdxB (p.take n) := by
  intro k hk
  rw [length_take_of_le hn] at hk
  rw [wAt_take p n k hk]
  exact h k (lt_of_lt_of_le hk hn)

/-- Specification of `container/heap.Pop` on a heap-ordered,
index-consistent, non-empty pool: it removes precisely the root — a worker
of globally minimal pending count — and returns a heap-ordered,
index-consistent pool holding the remaining workers. -/
theorem heapPop_spec (p : List Worker) (hheap : HeapD p) (hidx : IdxB p)
    (hne : p.length ≠ 0) :
    ∃ w p2, heapPop p = some (w, p2) ∧
      strip w = strip (wAt p 0) ∧
      p2.length = p.length - 1 ∧
      HeapD p2 ∧ IdxB p2 ∧
      List.Perm (smap p) (strip w :: smap p2) ∧
      (∀ k, k < p.length → w.pending ≤ wp p k) := by
  have hL : 0 < p.length := Nat.pos_of_ne_zero hne
  set m := p.length - 1 with hm
  have hunf : heapPop p
      = some (wAt (downF (swapW p 0 m) 0 m m).1 m,
        (downF (swapW p 0 m) 0 m m).1.take m) := by
    unfold heapPop downFrom
    rw [if_neg hne]
  have hmin : ∀ k, k < p.length → wp p 0 ≤ wp p k :=
    heapB_root_le p p.length hheap
  rcases Nat.eq_zero_or_pos m with hm0 | hmpos
  · -- single-element pool: the sift-down loop gets zero fuel and is a no-op
    have hq : downF (swapW p 0 m) 0 m m = (swapW p 0 m, 0) := by rw [hm0]; rfl
    have hw : wAt (downF (swapW p 0 m) 0 m m).1 m = { wAt p 0 with index := m } := by
      rw [hq, hm0]
      exact wAt_swapW_right p 0 0 hL
    have hp1 : p = [wAt p 0] := eq_take_append_last p 0 (by omega)
    refine ⟨_, _, hunf, ?_, ?_, ?_, ?_, ?_, ?_⟩
    · rw [hw]; rfl
    · rw [hq, hm0]; simp
    · rw [hq, hm0]
      simpa using heapD_nil
    · rw [hq, hm0]
      simpa using idxB_nil
    · rw [hw, hq, hm0]
      rw [show smap p = [strip (wAt p 0)] from by rw [hp1]; rfl]
      simp [smap]
      rfl
    · intro k hk
      have := hmin k hk
      rw [hw]
      exact this
  · -- general case: sift down on the prefix of length m
    have hml : m < p.length := by omega
    have H1 : ∀ k, k < m → 0 < k → k ≠ 0 → parent k ≠ 0 →
        wp (swapW p 0 m) (parent k) ≤ wp (swapW p 0 m) k := by
      intro k hk h0 _ hpk
      have hkm : k ≠ m := by omega
      have hpkm : parent k ≠ m := by
        have := parent_lt h0; omega
      rw [wp_swapW_other p 0 m k (by omega) hkm,
        wp_swapW_other p 0 m (parent k) hpk hpkm]
      exact hheap k (by omega) h0
    have H2 : ∀ k, k < m → parent k = 0 → 0 < 0 →
        wp (swapW p 0 m) (parent 0) ≤ wp (swapW p 0 m) k := by
      intro k _ _ h0
      exact absurd h0 (by omega)
    obtain ⟨ihlen, ihhigh, _, ihperm, ihidx, _, ihedge, _, _⟩ :=
      downF_spec m (swapW p 0 m) 0 m (by rw [length_swapW]; omega) hmpos
        (by omega) H1 H2
    have hheapq : HeapB (downF (swapW p 0 m) 0 m m).1 m :=
      ihedge (fun h => absurd h (by omega))
    have hqlen : (downF (swapW p 0 m) 0 m m).1.length = p.length := by
      rw [ihlen, length_swapW]
    have hwn : wAt (downF (swapW p 0 m) 0 m m).1 m
        = { wAt p 0 with index := m } := by
      rw [ihhigh m (le_refl m)]
      exact wAt_swapW_right p 0 m hml
    refine ⟨_, _, hunf, ?_, ?_, ?_, ?_, ?_, ?_⟩
    · rw [hwn]; rfl
    · rw [length_take_of_le (by rw [hqlen]; omega)]
    · exact heapD_take _ m (by rw [hqlen]; omega) hheapq
    · exact idxB_take _ m (by rw [hqlen]; omega)
        (ihidx (idxB_swapW p 0 m hL hml hidx))
    · have hsplit := eq_take_append_last (downF (swapW p 0 m) 0 m m).1 m
        (by rw [hqlen]; omega)
      have hqperm : List.Perm (smap p) (smap (downF (swapW p 0 m) 0 m m).1) :=
        (ihperm.trans (smap_swapW p 0 m hL hml)).symm
      refine hqperm.trans ?_
      conv_lhs => rw [hsplit]
      rw [show smap ((downF (swapW p 0 m) 0 m m).1.take m
          ++ [wAt (downF (swapW p 0 m) 0 m m).1 m])
        = smap ((downF (swapW p 0 m) 0 m m).1.take m)
          ++ [strip (wAt (downF (swapW p 0 m) 0 m m).1 m)] from by simp [smap]]
      exact List.perm_append_singleton _ _
    · intro k hk
      have := hmin k hk
      rw [hwn]
      exact this

/-- Specification of `container/heap.Remove(h, i)` on an index-consistent
pool that is heap-ordered except possibly at position `i` (whose children
are still at least `i`'s parent — the situation created by `completed`'s
decrement): it removes precisely the element at position `i` and returns a
heap-ordered, index-consistent pool holding the remaining workers. -/
theorem heapRemove_spec (p : List Worker) (i : Nat) (hi : i < p.length)
    (hidx : IdxB p)
    (R1 : ∀ k, k < p.length → 0 < k → k ≠ i → parent k ≠ i →
      wp p (parent k) ≤ wp p k)
    (R2 : ∀ k, k < p.length → parent k = i → 0 < i →
      wp p (parent i) ≤ wp p k) :
    ∃ w p2, heapRemove p i = some (w, p2) ∧
      strip w = strip (wAt p i) ∧
      p2.length = p.length - 1 ∧
      HeapD p2 ∧ IdxB p2 ∧
      List.Perm (smap p) (strip w :: smap p2) := by
  have hL : 0 < p.length := by omega
  have hnot : ¬ (p.length ≤ i) := by omega
  by_cases hieq : i = p.length - 1
  · -- removing the last element: no sifting at all
    have hunf : heapRemove p i
        = some (wAt p (p.length - 1), p.take (p.length - 1)) := by
      simp only [heapRemove]
      rw [if_neg hnot, if_pos hieq]
    have hsplit : p = p.take (p.length - 1) ++ [wAt p (p.length - 1)] :=
      eq_take_append_last p (p.length - 1) (by omega)
    refine ⟨_, _, hunf, by rw [hieq], ?_, ?_, ?_, ?_⟩
    · rw [length_take_of_le (by omega)]
    · refine heapD_take p (p.length - 1) (by omega) ?_
      intro k hk h0
      have hpk : parent k < k := parent_lt h0
      exact R1 k (by omega) h0 (by omega) (by omega)
    · exact idxB_take p (p.length - 1) (by omega) hidx
    · conv_lhs => rw [hsplit]
      rw [show smap (p.take (p.length - 1) ++ [wAt p (p.length - 1)])
        = smap (p.take (p.length - 1)) ++ [strip (wAt p (p.length - 1))]
        from by simp [smap]]
      exact List.perm_append_singleton _ _
  · -- removing an interior element: swap with the last, then fix
    have hin : i < p.length - 1 := by omega
    have hnlen : p.length - 1 < p.length := by omega
    have H1 : ∀ k, k < p.length - 1 → 0 < k → k ≠ i → parent k ≠ i →
        wp (swapW p i (p.length - 1)) (parent k)
          ≤ wp (swapW p i (p.length - 1)) k := by
      intro k hk h0 hki hpki
      have hpk : parent k < k := parent_lt h0
      rw [wp_swapW_other p i (p.length - 1) k hki (by omega),
        wp_swapW_other p i (p.length - 1) (parent k) hpki (by omega)]
      exact R1 k (by omega) h0 hki hpki
    have H2 : ∀ k, k < p.length - 1 → parent k = i → 0 < i →
        wp (swapW p i (p.length - 1)) (parent i)
          ≤ wp (swapW p i (p.length - 1)) k := by
      intro k hk hpk h0i
      have hpi : parent i < i := parent_lt h0i
      have h0k : 0 < k := by
        rcases Nat.eq_zero_or_pos k with rfl | h
        · unfold parent at hpk; omega
        · exact h
      have hkgt : i < k := hpk ▸ parent_lt h0k
      rw [wp_swapW_other p i (p.length - 1) (parent i) (by omega) (by omega),
        wp_swapW_other p i (p.length - 1) k (by omega) (by omega)]
      exact R2 k (by omega) hpk h0i
    obtain ⟨ihlen, ihhigh, ihlow, ihperm, ihidx, ihpos, ihedge, ihnomove, ihmove⟩ :=
      downF_spec (p.length - 1) (swapW p i (p.length - 1)) i (p.length - 1)
        (by rw [length_swapW]; omega) hin (by omega) H1 H2
    have hq0idx : IdxB (swapW p i (p.length - 1)) :=
      idxB_swapW p i (p.length - 1) hi hnlen hidx
    by_cases hmv : i < (downF (swapW p i (p.length - 1)) i (p.length - 1)
        (p.length - 1)).2
    · -- the moved-in element sank: `down` already restored heap order
      have hunf : heapRemove p i
          = some (wAt (downF (swapW p i (p.length - 1)) i (p.length - 1)
              (p.length - 1)).1 (p.length - 1),
            (downF (swapW p i (p.length - 1)) i (p.length - 1)
              (p.length - 1)).1.take (p.length - 1)) := by
        simp only [heapRemove, downFrom]
        rw [if_neg hnot, if_neg hieq, if_pos hmv]
      have hheapq := ihmove hmv
      have hqlen : (downF (swapW p i (p.length - 1)) i (p.length - 1)
          (p.length - 1)).1.length = p.length := by
        rw [ihlen, length_swapW]
      have hwn : wAt (downF (swapW p i (p.length - 1)) i (p.length - 1)
          (p.length - 1)).1 (p.length - 1) = { wAt p i with index := p.length - 1 } := by
        rw [ihhigh (p.length - 1) (le_refl _)]
        exact wAt_swapW_right p i (p.length - 1) hnlen
      refine ⟨_, _, hunf, by rw [hwn]; rfl, ?_, ?_, ?_, ?_⟩
      · rw [length_take_of_le (by rw [hqlen]; omega)]
      · exact heapD_take _ (p.length - 1) (by rw [hqlen]; omega) hheapq
      · exact idxB_take _ (p.length - 1) (by rw [hqlen]; omega) (ihidx hq0idx)
      · have hsplit := eq_take_append_last
          (downF (swapW p i (p.length - 1)) i (p.length - 1) (p.length - 1)).1
          (p.length - 1) (by rw [hqlen]; omega)
        have hqperm : List.Perm (smap p)
            (smap (downF (swapW p i (p.length - 1)) i (p.length - 1)
              (p.length - 1)).1) :=
          (ihperm.trans (smap_swapW p i (p.length - 1) hi hnlen)).symm
        refine hqperm.trans ?_
        conv_lhs => rw [hsplit]
        rw [show smap ((downF (swapW p i (p.length - 1)) i (p.length - 1)
              (p.length - 1)).1.take (p.length - 1)
            ++ [wAt (downF (swapW p i (p.length - 1)) i (p.length - 1)
              (p.length - 1)).1 (p.length - 1)])
          = smap ((downF (swapW p i (p.length - 1)) i (p.length - 1)
              (p.length - 1)).1.take (p.length - 1))
            ++ [strip (wAt (downF (swapW p i (p.length - 1)) i (p.length - 1)
              (p.length - 1)).1 (p.length - 1))] from by simp [smap]]
        exact List.perm_append_singleton _ _
    · -- the moved-in element did not sink: `up` restores heap order
      have hstay : (downF (swapW p i (p.length - 1)) i (p.length - 1)
          (p.length - 1)).2 = i := by omega
      obtain ⟨hq0, childrenOK⟩ := ihnomove hstay
      have H1up : ∀ k, k < p.length - 1 → 0 < k → k ≠ i →
          wp (swapW p i (p.length - 1)) (parent k)
            ≤ wp (swapW p i (p.length - 1)) k := by
        intro k hk h0 hki
        rcases eq_or_ne (parent k) i with hpk | hpk
        · rw [hpk]
          exact childrenOK k hk hpk
        · exact H1 k hk h0 hki hpk
      obtain ⟨uplen, upuntouched, upperm, upidx, upheap⟩ :=
        up_spec (swapW p i (p.length - 1)) i (p.length - 1) hin
          (by rw [length_swapW]; omega) H1up H2
      have hunf : heapRemove p i
          = some (wAt (up (downF (swapW p i (p.length - 1)) i (p.length - 1)
              (p.length - 1)).1 i) (p.length - 1),
            (up (downF (swapW p i (p.length - 1)) i (p.length - 1)
              (p.length - 1)).1 i).take (p.length - 1)) := by
        simp only [heapRemove, downFrom]
        rw [if_neg hnot, if_neg hieq, if_neg hmv]
      rw [hq0] at hunf
      have hqlen : (up (swapW p i (p.length - 1)) i).length = p.length := by
        rw [uplen, length_swapW]
      have hwn : wAt (up (swapW p i (p.length - 1)) i) (p.length - 1)
          = { wAt p i with index := p.length - 1 } := by
        rw [upuntouched (p.length - 1) hin]
        exact wAt_swapW_right p i (p.length - 1) hnlen
      refine ⟨_, _, hunf, by rw [hwn]; rfl, ?_, ?_, ?_, ?_⟩
      · rw [length_take_of_le (by rw [hqlen]; omega)]
      · exact heapD_take _ (p.length - 1) (by rw [hqlen]; omega) upheap
      · exact idxB_take _ (p.length - 1) (by rw [hqlen]; omega) (upidx hq0idx)
      · have hsplit := eq_take_append_last (up (swapW p i (p.length - 1)) i)
          (p.length - 1) (by rw [hqlen]; omega)
        have hqperm : List.Perm (smap p) (smap (up (swapW p i (p.length - 1)) i)) :=
          (upperm.trans (smap_swapW p i (p.length - 1) hi hnlen)).symm
        refine hqperm.trans ?_
        conv_lhs => rw [hsplit]
        rw [show smap ((up (swapW p i (p.length - 1)) i).take (p.length - 1)
            ++ [wAt (up (swapW p i (p.length - 1)) i) (p.length - 1)])
          = smap ((up (swapW p i (p.length - 1)) i).take (p.length - 1))
            ++ [strip (wAt (up (swapW p i (p.length - 1)) i) (p.length - 1))]
          from by simp [smap]]
        exact List.perm_append_singleton _ _

/-! ## Unconditional structural lemmas -/

theorem length_upF : ∀ (fuel : Nat) (p : List Worker) (j : Nat),
    (upF p j fuel).length = p.length
  | 0, _, _ => rfl
  | fuel + 1, p, j => by
    show (if parent j = j ∨ less p j (parent j) = false then p
      else upF (swapW p (parent j) j) (parent j) fuel).length = p.length
    by_cases hc : parent j = j ∨ less p j (parent j) = false
    · rw [if_pos hc]
    · rw [if_neg hc, length_upF fuel _ _, length_swapW]

theorem length_downF : ∀ (fuel : Nat) (p : List Worker) (i n : Nat),
    (downF p i n fuel).1.length = p.length
  | 0, _, _, _ => rfl
  | fuel + 1, p, i, n => by
    simp only [downF]
    by_cases hA : n ≤ 2 * i + 1
    · rw [if_pos hA]
    · rw [if_neg hA]
      by_cases hlt : less p (if 2 * i + 1 + 1 < n ∧
          less p (2 * i + 1 + 1) (2 * i + 1) = true then 2 * i + 1 + 1
          else 2 * i + 1) i = true
      · rw [if_pos hlt, length_downF fuel _ _ _, length_swapW]
      · rw [if_neg hlt]

theorem length_up (p : List Worker) (j : Nat) : (up p j).length = p.length :=
  length_upF (j + 1) p j

theorem length_heapPush (p : List Worker) (w : Worker) :
    (heapPush p w).length = p.length + 1 := by
  rw [heapPush, length_up, length_poolPush]

theorem heapPop_none_iff (p : List Worker) : heapPop p = none ↔ p.length = 0 := by
  unfold heapPop
  by_cases h : p.length = 0
  · rw [if_pos h]; simp [h]
  · rw [if_neg h]; simp [h]

theorem heapPop_length (p : List Worker) (w : Worker) (p2 : List Worker)
    (h : heapPop p = some (w, p2)) : p2.length = p.length - 1 := by
  unfold heapPop at h
  by_cases hz : p.length = 0
  · rw [if_pos hz] at h; exact absurd h (by simp)
  · rw [if_neg hz] at h
    have h2 := (Option.some.injEq _ _).mp h
    rw [Prod.mk.injEq] at h2
    have h3 : p2 = ((downFrom (swapW p 0 (p.length - 1)) 0 (p.length - 1)).1).take
        (p.length - 1) := by
      rw [← h2.2]
    rw [h3]
    refine length_take_of_le ?_
    rw [show downFrom (swapW p 0 (p.length - 1)) 0 (p.length - 1)
      = downF (swapW p 0 (p.length - 1)) 0 (p.length - 1) (p.length - 1) from rfl]
    rw [length_downF, length_swapW]
    omega

theorem heapRemove_length (p : List Worker) (i : Nat) (w : Worker) (p2 : List Worker)
    (h : heapRemove p i = some (w, p2)) : p2.length = p.length - 1 := by
  unfold heapRemove at h
  by_cases hz : p.length ≤ i
  · rw [if_pos hz] at h; exact absurd h (by simp)
  · rw [if_neg hz] at h
    have h2 := (Option.some.injEq _ _).mp h
    rw [Prod.mk.injEq] at h2
    have h3 : p2 = (if i = p.length - 1 then p
        else
          if i < (downFrom (swapW p i (p.length - 1)) i (p.length - 1)).2 then
            (downFrom (swapW p i (p.length - 1)) i (p.length - 1)).1
          else up (downFrom (swapW p i (p.length - 1)) i (p.length - 1)).1 i).take
        (p.length - 1) := by rw [← h2.2]
    have h4 : (if i = p.length - 1 then p
        else
          if i < (downFrom (swapW p i (p.length - 1)) i (p.length - 1)).2 then
            (downFrom (swapW p i (p.length - 1)) i (p.length - 1)).1
          else up (downFrom (swapW p i (p.length - 1)) i (p.length - 1)).1 i).length
        = p.length := by
      by_cases hie : i = p.length - 1
      · rw [if_pos hie]
      · rw [if_neg hie]
        by_cases hmv : i < (downFrom (swapW p i (p.length - 1)) i (p.length - 1)).2
        · rw [if_pos hmv,
            show downFrom (swapW p i (p.length - 1)) i (p.length - 1)
              = downF (swapW p i (p.length - 1)) i (p.length - 1) (p.length - 1)
              from rfl, length_downF, length_swapW]
        · rw [if_neg hmv, length_up,
            show downFrom (swapW p i (p.length - 1)) i (p.length - 1)
              = downF (swapW p i (p.length - 1)) i (p.length - 1) (p.length - 1)
              from rfl, length_downF, length_swapW]
    rw [h3, length_take_of_le (by rw [h4]; omega)]

theorem heapRemove_none_iff (p : List Worker) (i : Nat) :
    heapRemove p i = none ↔ p.length ≤ i := by
  unfold heapRemove
  by_cases h : p.length ≤ i
  · rw [if_pos h]; simp [h]
  · rw [if_neg h]; simp [h]

/-! ## Erase-index permutation helpers -/

theorem perm_set_cons_eraseIdx : ∀ (l : List Worker) (i : Nat) (a : Worker),
    i < l.length → List.Perm (l.set i a) (a :: l.eraseIdx i)
  | x :: r, 0, a, _ => List.Perm.refl _
  | x :: r, i + 1, a, h => by
    have ih := perm_set_cons_eraseIdx r i a (Nat.lt_of_succ_lt_succ h)
    exact (ih.cons x).trans (List.Perm.swap a x _)

theorem perm_cons_eraseIdx (l : List Worker) (i : Nat) (h : i < l.length) :
    List.Perm l (wAt l i :: l.eraseIdx i) := by
  have := perm_set_cons_eraseIdx l i (wAt l i) h
  rwa [set_wAt_self] at this

/-! ## Specifications of the balancer operations -/

/-- Specification of `Balancer.dispatch` on a valid non-empty pool: it
extracts a worker of globally minimal pending count, appends the task to
that worker's own `tasks` queue, increments its pending count by one, and
reinserts it, leaving every other worker untouched and every channel field
of the balancer unchanged. -/
theorem dispatch_spec (b : Balancer) (t : Task) (hheap : HeapD b.pool)
    (hidx : IdxB b.pool) (hne : b.pool.length ≠ 0) :
    ∃ w b2 rest, dispatch b t = some b2 ∧
      strip w = strip (wAt b.pool 0) ∧
      b2.pool.length = b.pool.length ∧
      HeapD b2.pool ∧ IdxB b2.pool ∧
      b2.done = b.done ∧ b2.work = b.work ∧
      b2.workCap = b.workCap ∧ b2.doneCap = b.doneCap ∧
      (∀ k, k < b.pool.length → w.pending ≤ wp b.pool k) ∧
      List.Perm (smap b.pool) (strip w :: rest) ∧
      List.Perm (smap b2.pool)
        (⟨w.id, w.tasks ++ [t], w.pending + 1, 0⟩ :: rest) := by
  obtain ⟨w, p2, hpop, hstrip, hlen2, hheap2, hidx2, hperm2, hmin⟩ :=
    heapPop_spec b.pool hheap hidx hne
  have hunf : dispatch b t = some { b with
      pool := heapPush p2 { w with
        tasks := w.tasks ++ [t],
        pending := w.pending + 1 } } := by
    unfold dispatch
    rw [hpop]
  obtain ⟨hplen, hpheap, hpidx, hpperm⟩ :=
    heapPush_spec p2 { w with tasks := w.tasks ++ [t], pending := w.pending + 1 }
      hheap2 hidx2
  refine ⟨w, _, smap p2, hunf, hstrip, ?_, hpheap, hpidx, rfl, rfl, rfl, rfl,
    hmin, hperm2, ?_⟩
  · show (heapPush p2 _).length = b.pool.length
    rw [length_heapPush, hlen2]
    omega
  · exact hpperm

/-- Specification of `Balancer.completed` on a valid pool at a valid
position: it decrements exactly that worker's pending count by one
(independently of any task outcome), removes and reinserts it, and leaves
every other worker and every channel field unchanged. -/
theorem completed_spec (b : Balancer) (i : Nat) (hheap : HeapD b.pool)
    (hidx : IdxB b.pool) (hi : i < b.pool.length) :
    ∃ b2 rest, completed b i = some b2 ∧
      b2.pool.length = b.pool.length ∧ HeapD b2.pool ∧ IdxB b2.pool ∧
      b2.done = b.done ∧ b2.work = b.work ∧
      b2.workCap = b.workCap ∧ b2.doneCap = b.doneCap ∧
      List.Perm (smap b.pool) (strip (wAt b.pool i) :: rest) ∧
      List.Perm (smap b2.pool)
        (⟨(wAt b.pool i).id, (wAt b.pool i).tasks,
          (wAt b.pool i).pending - 1, 0⟩ :: rest) := by
  have hp1len : (b.pool.set i ⟨(wAt b.pool i).id, (wAt b.pool i).tasks,
      (wAt b.pool i).pending - 1, i⟩).length = b.pool.length :=
    List.length_set ..
  have hw1at : wAt (b.pool.set i ⟨(wAt b.pool i).id, (wAt b.pool i).tasks,
      (wAt b.pool i).pending - 1, i⟩) i
      = ⟨(wAt b.pool i).id, (wAt b.pool i).tasks,
        (wAt b.pool i).pending - 1, i⟩ :=
    wAt_set_self _ i _ hi
  have hother : ∀ k, k ≠ i → wAt (b.pool.set i ⟨(wAt b.pool i).id,
      (wAt b.pool i).tasks, (wAt b.pool i).pending - 1, i⟩) k = wAt b.pool k := by
    intro k hk
    exact wAt_set_ne _ i k _ (fun e => hk e.symm)
  have R1 : ∀ k, k < (b.pool.set i ⟨(wAt b.pool i).id, (wAt b.pool i).tasks,
        (wAt b.pool i).pending - 1, i⟩).length → 0 < k → k ≠ i →
      parent k ≠ i →
      wp (b.pool.set i ⟨(wAt b.pool i).id, (wAt b.pool i).tasks,
        (wAt b.pool i).pending - 1, i⟩) (parent k)
        ≤ wp (b.pool.set i ⟨(wAt b.pool i).id, (wAt b.pool i).tasks,
          (wAt b.pool i).pending - 1, i⟩) k := by
    intro k hk h0 hki hpki
    unfold wp
    rw [hother k hki, hother (parent k) hpki]
    exact hheap k (by rw [hp1len] at hk; exact hk) h0
  have R2 : ∀ k, k < (b.pool.set i ⟨(wAt b.pool i).id, (wAt b.pool i).tasks,
        (wAt b.pool i).pending - 1, i⟩).length → parent k = i → 0 < i →
      wp (b.pool.set i ⟨(wAt b.pool i).id, (wAt b.pool i).tasks,
        (wAt b.pool i).pending - 1, i⟩) (parent i)
        ≤ wp (b.pool.set i ⟨(wAt b.pool i).id, (wAt b.pool i).tasks,
          (wAt b.pool i).pending - 1, i⟩) k := by
    intro k hk hpk h0i
    rw [hp1len] at hk
    have h0k : 0 < k := by
      rcases Nat.eq_zero_or_pos k with rfl | h
      · unfold parent at hpk; omega
      · exact h
    have hki : k ≠ i := by
      intro e
      rw [e] at hpk
      exact absurd (parent_eq_self_iff.mp hpk) (by omega)
    unfold wp
    rw [hother k hki, hother (parent i) (Nat.ne_of_lt (parent_lt h0i))]
    refine le_trans (hheap i hi h0i) ?_
    have := hheap k hk h0k
    rwa [hpk] at this
  have hidx1 : IdxB (b.pool.set i ⟨(wAt b.pool i).id, (wAt b.pool i).tasks,
      (wAt b.pool i).pending - 1, i⟩) := by
    intro k hk
    rw [hp1len] at hk
    rcases eq_or_ne k i with rfl | hki
    · rw [hw1at]
    · rw [hother k hki]
      exact hidx k hk
  obtain ⟨wr, p2, hrem, hstripr, hlen2, hheap2, hidx2, hperm2⟩ :=
    heapRemove_spec (b.pool.set i ⟨(wAt b.pool i).id, (wAt b.pool i).tasks,
      (wAt b.pool i).pending - 1, i⟩) i (by rw [hp1len]; exact hi)
      hidx1 R1 R2
  have hunf : completed b i = some { b with
      pool := heapPush p2 ⟨(wAt b.pool i).id, (wAt b.pool i).tasks,
        (wAt b.pool i).pending - 1, i⟩ } := by
    simp only [completed, if_pos hi]
    rw [show (⟨(wAt b.pool i).id, (wAt b.pool i).tasks,
        (wAt b.pool i).pending - 1, (wAt b.pool i).index⟩ : Worker)
      = ⟨(wAt b.pool i).id, (wAt b.pool i).tasks,
        (wAt b.pool i).pending - 1, i⟩ from by rw [hidx i hi]]
    rw [hidx i hi, hrem]
  obtain ⟨hplen, hpheap, hpidx, hpperm⟩ :=
    heapPush_spec p2 ⟨(wAt b.pool i).id, (wAt b.pool i).tasks,
      (wAt b.pool i).pending - 1, i⟩ hheap2 hidx2
  have hstrip1 : strip wr = strip (⟨(wAt b.pool i).id, (wAt b.pool i).tasks,
      (wAt b.pool i).pending - 1, i⟩ : Worker) := by
    rw [hstripr, hw1at]
  have herase : List.Perm ((smap b.pool).eraseIdx i) (smap p2) := by
    have e1 : smap (b.pool.set i ⟨(wAt b.pool i).id, (wAt b.pool i).tasks,
        (wAt b.pool i).pending - 1, i⟩)
        = (smap b.pool).set i (strip (⟨(wAt b.pool i).id, (wAt b.pool i).tasks,
          (wAt b.pool i).pending - 1, i⟩ : Worker)) := by
      unfold smap
      rw [List.map_set]
    have e2 := perm_set_cons_eraseIdx (smap b.pool) i
      (strip (⟨(wAt b.pool i).id, (wAt b.pool i).tasks,
        (wAt b.pool i).pending - 1, i⟩ : Worker))
      (by rw [length_smap]; exact hi)
    have e3 : List.Perm (strip (⟨(wAt b.pool i).id, (wAt b.pool i).tasks,
        (wAt b.pool i).pending - 1, i⟩ : Worker) :: (smap b.pool).eraseIdx i)
        (strip (⟨(wAt b.pool i).id, (wAt b.pool i).tasks,
          (wAt b.pool i).pending - 1, i⟩ : Worker) :: smap p2) := by
      refine (e2.symm.trans ?_)
      rw [← e1]
      refine hperm2.trans ?_
      rw [hstrip1]
    exact e3.cons_inv
  have hpoolperm : List.Perm (smap b.pool) (strip (wAt b.pool i) :: smap p2) := by
    have h4 := perm_cons_eraseIdx (smap b.pool) i (by rw [length_smap]; exact hi)
    rw [wAt_map_strip] at h4
    exact h4.trans (herase.cons (strip (wAt b.pool i)))
  refine ⟨_, smap p2, hunf, ?_, hpheap, hpidx, rfl, rfl, rfl, rfl, hpoolperm, ?_⟩
  · show (heapPush p2 _).length = b.pool.length
    rw [length_heapPush, hlen2, hp1len]
    omega
  · exact hpperm

/-- The pool built by folding `heap.Push` over fresh zero-pending workers. -/
theorem foldl_heapPush_spec : ∀ (l : List Nat) (p : List Worker),
    HeapD p → IdxB p →
    (l.foldl (fun q i => heapPush q ⟨i, [], 0, 0⟩) p).length = p.length + l.length ∧
    HeapD (l.foldl (fun q i => heapPush q ⟨i, [], 0, 0⟩) p) ∧
    IdxB (l.foldl (fun q i => heapPush q ⟨i, [], 0, 0⟩) p) ∧
    List.Perm (smap (l.foldl (fun q i => heapPush q ⟨i, [], 0, 0⟩) p))
      (smap p ++ l.map fun i => ⟨i, [], 0, 0⟩)
  | [], p, hheap, hidx => ⟨by simp, hheap, hidx, by simp⟩
  | i :: l, p, hheap, hidx => by
    obtain ⟨hplen, hpheap, hpidx, hpperm⟩ :=
      heapPush_spec p ⟨i, [], 0, 0⟩ hheap hidx
    obtain ⟨ihlen, ihheap, ihidx, ihperm⟩ :=
      foldl_heapPush_spec l (heapPush p ⟨i, [], 0, 0⟩) hpheap hpidx
    refine ⟨?_, ihheap, ihidx, ?_⟩
    · show (l.foldl _ (heapPush p ⟨i, [], 0, 0⟩)).length = _
      rw [ihlen, hplen]
      simp
      omega
    · show List.Perm (smap (l.foldl _ (heapPush p ⟨i, [], 0, 0⟩))) _
      refine ihperm.trans ?_
      have h1 : List.Perm (smap (heapPush p ⟨i, [], 0, 0⟩) ++ l.map fun k => ⟨k, [], 0, 0⟩)
          ((strip ⟨i, [], 0, 0⟩ :: smap p) ++ l.map fun k => ⟨k, [], 0, 0⟩) :=
        hpperm.append_right _
      refine h1.trans ?_
      show List.Perm (strip ⟨i, [], 0, 0⟩ :: (smap p ++ _)) _
      exact List.perm_middle.symm
  termination_by l => l.length

/-- The pool built by `New`: `n` zero-pending workers with ids `0..n-1`. -/
theorem newPool_spec (n : Nat) :
    (newPool n).length = n ∧ HeapD (newPool n) ∧ IdxB (newPool n) ∧
    List.Perm (smap (newPool n))
      ((List.range n).map fun i => ⟨i, [], 0, 0⟩) := by
  obtain ⟨hlen, hheap, hidx, hperm⟩ :=
    foldl_heapPush_spec (List.range n) (heapInit []) heapD_nil idxB_nil
  refine ⟨?_, hheap, hidx, ?_⟩
  · show (newPool n).length = n
    unfold newPool
    rw [hlen]
    simp [heapInit, initLoopF]
  · refine hperm.trans ?_
    show List.Perm (smap (heapInit []) ++ _) _
    exact List.Perm.refl _

/-! ## Pending-count accounting -/

theorem pends_eq_smap_map (p : List Worker) :
    pends p = (smap p).map fun w => w.pending := by
  unfold pends smap
  rw [List.map_map]
  rfl

theorem length_pends (p : List Worker) : (pends p).length = p.length :=
  List.length_map ..

theorem mem_wAt : ∀ (p : List Worker) (a : Worker), a ∈ p →
    ∃ k, k < p.length ∧ wAt p k = a := by
  intro p a h
  induction p with
  | nil => exact absurd h (by simp)
  | cons x r ih =>
    rcases List.mem_cons.mp h with rfl | h2
    · exact ⟨0, by simp, rfl⟩
    · obtain ⟨k, hk, hw⟩ := ih h2
      exact ⟨k + 1, by simpa using hk, hw⟩

theorem mem_pends (p : List Worker) (x : Int) (h : x ∈ pends p) :
    ∃ k, k < p.length ∧ wp p k = x := by
  unfold pends at h
  obtain ⟨a, ha, hx⟩ := List.mem_map.mp h
  obtain ⟨k, hk, hw⟩ := mem_wAt p a ha
  exact ⟨k, hk, by rw [wp, hw, hx]⟩

theorem mul_le_sum : ∀ (l : List Int) (c : Int), (∀ y ∈ l, c ≤ y) →
    c * l.length ≤ l.sum
  | [], c, _ => by simp
  | x :: l, c, h => by
    have ih := mul_le_sum l c (fun y hy => h y (List.mem_cons_of_mem x hy))
    have hx := h x (List.mem_cons_self x l)
    have hlen : ((x :: l).length : Int) = l.length + 1 := by
      push_cast [List.length_cons]
      ring
    rw [hlen, List.sum_cons]
    have : c * ((l.length : Int) + 1) = c * l.length + c := by ring
    rw [this]
    linarith

/-- From pairwise difference at most one and a known sum, every pending
count is at most the ceiling of sum / size. -/
theorem max_bound_of_diff (l : List Int) (M : Nat) (hsum : l.sum = M)
    (hlen : l.length ≠ 0)
    (hdiff : ∀ x ∈ l, ∀ y ∈ l, x ≤ y + 1) :
    ∀ x ∈ l, x ≤ ((M + l.length - 1) / l.length : Nat) := by
  intro x hx
  rcases le_or_lt x 0 with hx0 | hx0
  · exact le_trans hx0 (Int.natCast_nonneg _)
  · have herase : List.Perm l (x :: l.erase x) := List.perm_cons_erase hx
    have hsum2 : (M : Int) = x + (l.erase x).sum := by
      rw [← hsum, herase.sum_eq, List.sum_cons]
    have hlen2 : (l.erase x).length = l.length - 1 := List.length_erase_of_mem hx
    have hbound : ∀ y ∈ l.erase x, x - 1 ≤ y := by
      intro y hy
      have hyl : y ∈ l := List.mem_of_mem_erase hy
      have := hdiff x hx y hyl
      omega
    have h5 : (x - 1) * ((l.erase x).length : Int) ≤ (l.erase x).sum :=
      mul_le_sum (l.erase x) (x - 1) hbound
    have hlpos : 1 ≤ l.length := by omega
    have hcast : ((l.erase x).length : Int) = (l.length : Int) - 1 := by
      rw [hlen2]
      push_cast [Nat.cast_sub hlpos]
      ring
    have hkey : x * (l.length : Int) ≤ (M : Int) + (l.length : Int) - 1 := by
      have e : x * (l.length : Int)
          = x + (x - 1) * ((l.length : Int) - 1) + ((l.length : Int) - 1) := by
        ring
      rw [e]
      rw [hcast] at h5
      have hl1 : (1 : Int) ≤ (l.length : Int) := by exact_mod_cast hlpos
      linarith
    set xn := x.toNat with hxn
    have hx' : x = (xn : Int) := by omega
    have hnat : xn * l.length ≤ M + l.length - 1 := by
      have h6 : ((xn * l.length : Nat) : Int) ≤ ((M + l.length - 1 : Nat) : Int) := by
        push_cast [Nat.cast_sub (by omega : 1 ≤ M + l.length)]
        rw [← hx']
        linarith
      exact_mod_cast h6
    have h7 : xn ≤ (M + l.length - 1) / l.length :=
      (Nat.le_div_iff_mul_le (by omega)).mpr hnat
    rw [hx']
    exact_mod_cast h7

/-- Iterating `dispatch` preserves validity, pool size, the
difference-at-most-one property of pending counts, and adds exactly one to
the total pending count per dispatched task. -/
theorem dispatchN_spec : ∀ (ts : List Task) (b b2 : Balancer),
    HeapD b.pool → IdxB b.pool → b.pool.length ≠ 0 →
    (∀ x ∈ pends b.pool, ∀ y ∈ pends b.pool, x ≤ y + 1) →
    dispatchN b ts = some b2 →
    HeapD b2.pool ∧ IdxB b2.pool ∧ b2.pool.length = b.pool.length ∧
    (∀ x ∈ pends b2.pool, ∀ y ∈ pends b2.pool, x ≤ y + 1) ∧
    (pends b2.pool).sum = (pends b.pool).sum + ts.length
  | [], b, b2, hheap, hidx, hne, hdiff, hrun => by
    have hb : b = b2 := by
      simpa [dispatchN] using hrun
    subst hb
    exact ⟨hheap, hidx, rfl, hdiff, by simp⟩
  | t :: ts, b, b2, hheap, hidx, hne, hdiff, hrun => by
    obtain ⟨w, b1, rest, hd, hstrip, hlen1, hheap1, hidx1, _, _, _, _,
      hmin, hperm1, hperm2⟩ := dispatch_spec b t hheap hidx hne
    have hrun2 : dispatchN b1 ts = some b2 := by
      rw [dispatchN, hd] at hrun
      exact hrun
    have hpold : List.Perm (pends b.pool) (w.pending :: rest.map fun u => u.pending) := by
      rw [pends_eq_smap_map]
      have := hperm1.map fun u => u.pending
      simpa using this
    have hpnew : List.Perm (pends b1.pool)
        ((w.pending + 1) :: rest.map fun u => u.pending) := by
      rw [pends_eq_smap_map]
      have := hperm2.map fun u => u.pending
      simpa using this
    have hminmem : ∀ y ∈ pends b.pool, w.pending ≤ y := by
      intro y hy
      obtain ⟨k, hk, hwk⟩ := mem_pends b.pool y hy
      rw [← hwk]
      exact hmin k hk
    have hwmem : w.pending ∈ pends b.pool := by
      rw [hpold.mem_iff]
      simp
    have hdiff1 : ∀ x ∈ pends b1.pool, ∀ y ∈ pends b1.pool, x ≤ y + 1 := by
      intro x hx y hy
      rw [hpnew.mem_iff] at hx hy
      rcases List.mem_cons.mp hx with rfl | hx2
      · rcases List.mem_cons.mp hy with rfl | hy2
        · omega
        · have hyold : y ∈ pends b.pool := by
            rw [hpold.mem_iff]
            exact List.mem_cons_of_mem _ hy2
          have := hminmem y hyold
          omega
      · have hxold : x ∈ pends b.pool := by
          rw [hpold.mem_iff]
          exact List.mem_cons_of_mem _ hx2
        rcases List.mem_cons.mp hy with rfl | hy2
        · have := hdiff x hxold w.pending hwmem
          omega
        · have hyold : y ∈ pends b.pool := by
            rw [hpold.mem_iff]
            exact List.mem_cons_of_mem _ hy2
          exact hdiff x hxold y hyold
    have hsum1 : (pends b1.pool).sum = (pends b.pool).sum + 1 := by
      rw [hpold.sum_eq, hpnew.sum_eq, List.sum_cons, List.sum_cons]
      ring
    obtain ⟨h2heap, h2idx, h2len, h2diff, h2sum⟩ :=
      dispatchN_spec ts b1 b2 hheap1 hidx1 (by omega) hdiff1 hrun2
    refine ⟨h2heap, h2idx, by omega, h2diff, ?_⟩
    rw [h2sum, hsum1]
    push_cast [List.length_cons]
    ring

/-! ## System-level lemmas: goroutines, traces, draining -/

/-- Unfolding `New` for a non-negative size. -/
theorem New_eq (N : Int) (hN : 0 ≤ N) :
    New N = some ({ pool := newPool N.toNat, done := [], work := [], workCap := N.toNat * 10, doneCap := N.toNat }, (List.range N.toNat).map fun i => Goroutine.worker i Chan.work) := by
  unfold New
  rw [if_neg (by omega)]

theorem New_neg (N : Int) (hN : N < 0) : New N = none := by
  unfold New
  rw [if_pos hN]

/-- `Balancer.Push` lifted to the system, as an if. -/
theorem sysPush_eq (s : Sys) (t : Task) :
    sysPush s t = if s.bal.work.length < s.bal.workCap
      then some { s with bal := { s.bal with work := s.bal.work ++ [t] } }
      else none := by
  unfold sysPush Balancer.Push
  by_cases h : s.bal.work.length < s.bal.workCap
  · rw [if_pos h, if_pos h]
  · rw [if_neg h, if_neg h]

/-- A worker-loop iteration on the shared `work` channel: it consumes the
head task, executes it, writes the outcome to the task's return channel,
and writes nothing to `done` and nothing to any worker's own queue. -/
theorem workerStep_work_eq (s : Sys) (wid : Nat) :
    workerStep (Goroutine.worker wid Chan.work) s =
      if Goroutine.worker wid Chan.work ∈ s.gs then
        match s.bal.work with
        | [] => none
        | t :: r => some ⟨{ s.bal with work := r }, s.gs, s.delivered ++ [(t.c, t.fn)]⟩
      else none := by
  simp only [workerStep, readChan]
  by_cases h : Goroutine.worker wid Chan.work ∈ s.gs
  · rw [if_pos h, if_pos h]
    cases hw : s.bal.work with
    | nil => rfl
    | cons t r => rfl
  · rw [if_neg h, if_neg h]

theorem workerStep_mem (g : Goroutine) (s s2 : Sys)
    (h : workerStep g s = some s2) : g ∈ s.gs := by
  cases g with
  | balance => exact absurd h (by simp [workerStep])
  | worker wid src =>
    simp only [workerStep] at h
    by_cases hm : Goroutine.worker wid src ∈ s.gs
    · exact hm
    · rw [if_neg hm] at h
      exact absurd h (by simp)

/-- One event preserves the goroutine list, the pool, and the per-task
balance between delivered outcomes and queued work, crediting exactly the
pushes. -/
theorem runEv_count (s0 : Sys) (e : Ev) (s1 : Sys)
    (hprop : ∀ wid src, Goroutine.worker wid src ∈ s0.gs → src = Chan.work)
    (h : runEv s0 e = some s1) :
    s1.gs = s0.gs ∧ s1.bal.pool = s0.bal.pool ∧
    s1.bal.workCap = s0.bal.workCap ∧
    ∀ t : Task, countDelivered s1 t + s1.bal.work.count t
      = countDelivered s0 t + s0.bal.work.count t
        + (if e = Ev.push t then 1 else 0) := by
  cases e with
  | push u =>
    simp only [runEv] at h
    rw [sysPush_eq] at h
    by_cases hc : s0.bal.work.length < s0.bal.workCap
    · rw [if_pos hc] at h
      have hs1 : s1 = { s0 with bal := { s0.bal with work := s0.bal.work ++ [u] } } :=
        ((Option.some.injEq _ _).mp h).symm
      subst hs1
      refine ⟨rfl, rfl, rfl, ?_⟩
      intro t
      show countDelivered s0 t + (s0.bal.work ++ [u]).count t
        = countDelivered s0 t + s0.bal.work.count t + _
      rw [List.count_append]
      have hcu : List.count t [u] = (if Ev.push u = Ev.push t then 1 else 0) := by
        by_cases ht : u = t
        · subst ht
          simp
        · simp [List.count_cons, ht]
      rw [hcu]
      omega
    · rw [if_neg hc] at h
      exact absurd h (by simp)
  | wstep g =>
    simp only [runEv] at h
    have hg := workerStep_mem g s0 s1 h
    cases g with
    | balance => exact absurd h (by simp [workerStep])
    | worker wid src =>
      have hsrc := hprop wid src hg
      subst hsrc
      rw [workerStep_work_eq, if_pos hg] at h
      cases hw : s0.bal.work with
      | nil =>
        rw [hw] at h
        exact absurd h (by simp)
      | cons v r =>
        rw [hw] at h
        have hs1 : s1 = ⟨{ s0.bal with work := r }, s0.gs, s0.delivered ++ [(v.c, v.fn)]⟩ :=
          ((Option.some.injEq _ _).mp h).symm
        subst hs1
        refine ⟨rfl, rfl, rfl, ?_⟩
        intro t
        show (s0.delivered ++ [(v.c, v.fn)]).count (t.c, t.fn) + r.count t
          = countDelivered s0 t + (v :: r).count t + _
        rw [List.count_append]
        have hev : (Ev.wstep (Goroutine.worker wid Chan.work)) ≠ Ev.push t := by
          simp
        by_cases hvt : v = t
        · subst hvt
          simp [List.count_cons, countDelivered]
          omega
        · have hpair : (v.c, v.fn) ≠ (t.c, t.fn) := by
            intro e2
            apply hvt
            cases v
            cases t
            simp_all
          simp [List.count_cons, countDelivered, hvt, hpair, hev]

/-- Running a trace preserves the goroutines and the pool and keeps the
books straight: delivered outcomes plus still-queued copies of each task
grow by exactly the pushes of the trace. -/
theorem run_count : ∀ (tr : List Ev) (s0 s : Sys),
    run s0 tr = some s →
    (∀ wid src, Goroutine.worker wid src ∈ s0.gs → src = Chan.work) →
    s.gs = s0.gs ∧ s.bal.pool = s0.bal.pool ∧
    ∀ t : Task, countDelivered s t + s.bal.work.count t
      = countDelivered s0 t + s0.bal.work.count t + countPush tr t
  | [], s0, s, hrun, _ => by
    have hs : s0 = s := by simpa [run] using hrun
    subst hs
    exact ⟨rfl, rfl, fun t => by simp [countPush]⟩
  | e :: tr, s0, s, hrun, hprop => by
    rw [run] at hrun
    cases he : runEv s0 e with
    | none =>
      rw [he] at hrun
      exact absurd hrun (by simp)
    | some s1 =>
      rw [he] at hrun
      have hrun1 : run s1 tr = some s := hrun
      obtain ⟨hgs1, hpool1, _, hcount1⟩ := runEv_count s0 e s1 hprop he
      have hprop1 : ∀ wid src, Goroutine.worker wid src ∈ s1.gs → src = Chan.work := by
        intro wid src hmem
        rw [hgs1] at hmem
        exact hprop wid src hmem
      obtain ⟨hgs2, hpool2, hcount2⟩ := run_count tr s1 s hrun1 hprop1
      refine ⟨hgs2.trans hgs1, hpool2.trans hpool1, ?_⟩
      intro t
      rw [hcount2 t, hcount1 t]
      simp only [countPush, List.count_cons]
      by_cases hpe : e = Ev.push t
      · subst hpe
        simp
        omega
      · have hq : (e == Ev.push t) = false := by
          simp [hpe]
        rw [hq]
        simp [hpe]

/-- Draining the shared work queue through one worker loop delivers exactly
the queued outcomes, in order, and empties the queue. -/
theorem drainF_delivered : ∀ (f : Nat) (s : Sys) (wid : Nat),
    Goroutine.worker wid Chan.work ∈ s.gs → s.bal.work.length ≤ f →
    (drainF wid f s).delivered
      = s.delivered ++ s.bal.work.map (fun u => (u.c, u.fn)) ∧
    (drainF wid f s).bal.work = []
  | 0, s, wid, _, hf => by
    have hw : s.bal.work = [] := List.length_eq_zero.mp (by omega)
    rw [drainF, hw]
    simp [hw]
  | f + 1, s, wid, hmem, hf => by
    rw [drainF]
    rw [workerStep_work_eq, if_pos hmem]
    cases hw : s.bal.work with
    | nil => simp [hw]
    | cons v r =>
      have hlen : r.length ≤ f := by
        rw [hw] at hf
        simp at hf
        omega
      have ih := drainF_delivered f ⟨{ s.bal with work := r }, s.gs, s.delivered ++ [(v.c, v.fn)]⟩ wid hmem hlen
      refine ⟨?_, ?_⟩
      · show (drainF wid f ⟨{ s.bal with work := r }, s.gs, s.delivered ++ [(v.c, v.fn)]⟩).delivered = _
        rw [ih.1]
        simp
      · show (drainF wid f ⟨{ s.bal with work := r }, s.gs, s.delivered ++ [(v.c, v.fn)]⟩).bal.work = []
        exact ih.2

theorem count_map_pair : ∀ (l : List Task) (t : Task),
    (l.map fun u => (u.c, u.fn)).count (t.c, t.fn) = l.count t
  | [], _ => rfl
  | v :: l, t => by
    rw [List.map_cons, List.count_cons, List.count_cons, count_map_pair l t]
    by_cases hvt : v = t
    · subst hvt
      simp
    · have hpair : (v.c, v.fn) ≠ (t.c, t.fn) := by
        intro e2
        apply hvt
        cases v
        cases t
        simp_all
      simp [hvt, hpair]

/-! ## Success conditions and length preservation of the balancer steps -/

theorem dispatch_none_of_empty (b : Balancer) (t : Task) (h : b.pool.length = 0) :
    dispatch b t = none := by
  unfold dispatch
  rw [(heapPop_none_iff b.pool).mpr h]

theorem dispatch_isSome (b : Balancer) (t : Task) (h : b.pool.length ≠ 0) :
    (dispatch b t).isSome = true := by
  cases hpop : heapPop b.pool with
  | none => exact absurd ((heapPop_none_iff b.pool).mp hpop) h
  | some pr =>
    obtain ⟨w, p⟩ := pr
    unfold dispatch
    rw [hpop]
    rfl

theorem dispatch_length (b : Balancer) (t : Task) (b2 : Balancer)
    (h : dispatch b t = some b2) : b2.pool.length = b.pool.length := by
  unfold dispatch at h
  cases hpop : heapPop b.pool with
  | none =>
    rw [hpop] at h
    exact absurd h (by simp)
  | some pr =>
    obtain ⟨w, p⟩ := pr
    rw [hpop] at h
    have hb2 : b2 = { b with pool := heapPush p { w with
        tasks := w.tasks ++ [t], pending := w.pending + 1 } } :=
      ((Option.some.injEq _ _).mp h).symm
    subst hb2
    have hlen := heapPop_length b.pool w p hpop
    have hne : b.pool.length ≠ 0 := by
      intro h0
      rw [(heapPop_none_iff b.pool).mpr h0] at hpop
      exact absurd hpop (by simp)
    show (heapPush p _).length = _
    rw [length_heapPush]
    omega

theorem completed_length (b : Balancer) (i : Nat) (b2 : Balancer)
    (h : completed b i = some b2) : b2.pool.length = b.pool.length := by
  simp only [completed] at h
  by_cases hi : i < b.pool.length
  · rw [if_pos hi] at h
    cases hrem : heapRemove
        (b.pool.set i ⟨(wAt b.pool i).id, (wAt b.pool i).tasks,
          (wAt b.pool i).pending - 1, (wAt b.pool i).index⟩)
        ((wAt b.pool i).index) with
    | none =>
      rw [hrem] at h
      exact absurd h (by simp)
    | some pr =>
      obtain ⟨wr, p2⟩ := pr
      rw [hrem] at h
      have hb2 : b2 = { b with pool := heapPush p2 ⟨(wAt b.pool i).id,
          (wAt b.pool i).tasks, (wAt b.pool i).pending - 1,
          (wAt b.pool i).index⟩ } :=
        ((Option.some.injEq _ _).mp h).symm
      subst hb2
      have hlen := heapRemove_length _ _ _ _ hrem
      rw [List.length_set] at hlen
      show (heapPush p2 _).length = _
      rw [length_heapPush]
      omega
  · rw [if_neg hi] at h
    exact absurd h (by simp)

theorem completed_none_of_oob (b : Balancer) (i : Nat) (h : ¬ i < b.pool.length) :
    completed b i = none := by
  simp only [completed]
  rw [if_neg h]

theorem step_pool_length {b b2 : Balancer} (h : Step b b2) :
    b2.pool.length = b.pool.length := by
  cases h with
  | disp t hd => exact dispatch_length _ t _ hd
  | comp i hc => exact completed_length _ i _ hc

/-! ## Claim theorems -/

/-- Claim C1, counterexample: `New 2` spawns only the two worker loops —
both reading the shared `work` channel — and does not start the balance
loop (`go balancer.balance(balancer.work)` is commented out), refuting
"after construction the dispatch loop is running". -/
theorem C1_counterexample :
    New 2 = some (⟨[⟨0, [], 0, 0⟩, ⟨1, [], 0, 1⟩], [], [], 20, 2⟩,
      [Goroutine.worker 0 Chan.work, Goroutine.worker 1 Chan.work]) ∧
    Goroutine.balance ∉
      [Goroutine.worker 0 Chan.work, Goroutine.worker 1 Chan.work] := by
  decide

/-- Claim C1, amended: for every positive workerCount, `New(workerCount)`
spawns exactly workerCount worker processing loops, each reading the shared
ingress channel, and does not start the Balancer's dispatch loop: no
dispatch loop is running after construction. -/
theorem C1_amended (k : Int) (hk : 0 < k) (b : Balancer) (gs : List Goroutine)
    (hnew : New k = some (b, gs)) :
    gs = (List.range k.toNat).map (fun i => Goroutine.worker i Chan.work) ∧
    gs.length = k.toNat ∧
    Goroutine.balance ∉ gs ∧
    b.pool.length = k.toNat := by
  rw [New_eq k (by omega)] at hnew
  have h2 := (Option.some.injEq _ _).mp hnew
  rw [Prod.mk.injEq] at h2
  obtain ⟨hb, hgs⟩ := h2
  subst hgs
  refine ⟨rfl, by simp, by simp, ?_⟩
  rw [← hb]
  exact (newPool_spec k.toNat).1

theorem C1_amended_witness :
    ([Goroutine.worker 0 Chan.work, Goroutine.worker 1 Chan.work]
      = (List.range (2 : Int).toNat).map fun i => Goroutine.worker i Chan.work) ∧
    ([Goroutine.worker 0 Chan.work, Goroutine.worker 1 Chan.work] : List Goroutine).length
      = (2 : Int).toNat ∧
    Goroutine.balance ∉ [Goroutine.worker 0 Chan.work, Goroutine.worker 1 Chan.work] ∧
    (⟨[⟨0, [], 0, 0⟩, ⟨1, [], 0, 1⟩], [], [], 20, 2⟩ : Balancer).pool.length
      = (2 : Int).toNat :=
  C1_amended 2 (by decide) ⟨[⟨0, [], 0, 0⟩, ⟨1, [], 0, 1⟩], [], [], 20, 2⟩
    [Goroutine.worker 0 Chan.work, Goroutine.worker 1 Chan.work] (by decide)

/-- Claim C2, counterexample: `New 0` does not fail — it returns a
fully-formed balancer with an empty pool, empty zero-capacity channels, and
spawns nothing, refuting "fails fast with an immediately reported error
[and] never returns a partially constructed usable-but-broken balancer". -/
theorem C2_counterexample :
    New 0 = some (⟨[], [], [], 0, 0⟩, ([] : List Goroutine)) := by
  decide

/-- Claim C2, amended: for workerCount 0, `New` starts no workers and no
dispatch loop but does not fail: it returns a balancer with an empty pool
and zero-capacity channels; only a negative workerCount aborts construction
(the negative channel-capacity `make` panics). -/
theorem C2_amended (z : Int) (hz : z ≤ 0) :
    (z = 0 → New z = some (⟨[], [], [], 0, 0⟩, ([] : List Goroutine))) ∧
    (z < 0 → New z = none) := by
  constructor
  · intro h0
    subst h0
    decide
  · intro hneg
    exact New_neg z hneg

theorem C2_amended_witness :
    ((0 : Int) ≤ 0) ∧
    (((0 : Int) = 0 → New 0 = some (⟨[], [], [], 0, 0⟩, ([] : List Goroutine))) ∧
      ((0 : Int) < 0 → New 0 = none)) :=
  ⟨by decide, C2_amended 0 (by decide)⟩

/-- Claim C3, counterexample: the single worker loop spawned by `New 1`
reads the shared `work` channel, not its own `tasks` queue, and an
iteration of that loop delivers the outcome without sending any completion
signal: the `done` channel stays empty and the worker's own queue is never
read (the spawned goroutine is `worker 0 (Chan.work)`, not
`worker 0 (Chan.tasks 0)`). -/
theorem C3_counterexample :
    New 1 = some (⟨[⟨0, [], 0, 0⟩], [], [], 10, 1⟩, [Goroutine.worker 0 Chan.work]) ∧
    Goroutine.worker 0 (Chan.tasks 0) ∉ [Goroutine.worker 0 Chan.work] ∧
    workerStep (Goroutine.worker 0 Chan.work)
      ⟨⟨[⟨0, [], 0, 0⟩], [], [⟨some "boom", 7⟩], 10, 1⟩,
        [Goroutine.worker 0 Chan.work], []⟩
      = some ⟨⟨[⟨0, [], 0, 0⟩], [], [], 10, 1⟩,
        [Goroutine.worker 0 Chan.work], [(7, some "boom")]⟩ := by
  decide

/-- Claim C3, amended: every worker loop spawned by `New` reads the shared
ingress channel (not a per-worker queue), executes the task's callable and
writes the outcome — unmodified — to the task's delivery slot, and sends no
completion signal: the balancer's channels other than `work` are untouched
by a worker iteration. -/
theorem C3_amended :
    (∀ (k : Int) (b : Balancer) (gs : List Goroutine), New k = some (b, gs) →
      gs = (List.range k.toNat).map fun i => Goroutine.worker i Chan.work) ∧
    (∀ (s : Sys) (wid : Nat) (t : Task) (rest : List Task),
      Goroutine.worker wid Chan.work ∈ s.gs → s.bal.work = t :: rest →
      workerStep (Goroutine.worker wid Chan.work) s
        = some ⟨{ s.bal with work := rest }, s.gs,
            s.delivered ++ [(t.c, t.fn)]⟩) := by
  constructor
  · intro k b gs hnew
    by_cases hk : k < 0
    · rw [New_neg k hk] at hnew
      exact absurd hnew (by simp)
    · rw [New_eq k (by omega)] at hnew
      have h2 := (Option.some.injEq _ _).mp hnew
      rw [Prod.mk.injEq] at h2
      exact h2.2.symm
  · intro s wid t rest hmem hwork
    rw [workerStep_work_eq, if_pos hmem, hwork]

theorem C3_amended_witness :
    workerStep (Goroutine.worker 0 Chan.work)
      ⟨⟨[⟨0, [], 0, 0⟩], [], [⟨none, 4⟩, ⟨none, 5⟩], 10, 1⟩,
        [Goroutine.worker 0 Chan.work], []⟩
      = some ⟨⟨[⟨0, [], 0, 0⟩], [], [⟨none, 5⟩], 10, 1⟩,
        [Goroutine.worker 0 Chan.work], [(4, none)]⟩ :=
  C3_amended.2 ⟨⟨[⟨0, [], 0, 0⟩], [], [⟨none, 4⟩, ⟨none, 5⟩], 10, 1⟩,
      [Goroutine.worker 0 Chan.work], []⟩ 0 ⟨none, 4⟩ [⟨none, 5⟩]
    (by decide) rfl

/-- Claim C4, confirmed: starting from `New N` (all pending counts zero)
and applying the dispatch step once per task of `ts` with no intervening
completions, every pending count is at most `ceil(M/N)` and any two pending
counts differ by at most one. -/
theorem C4_even_distribution (N : Int) (b b2 : Balancer) (gs : List Goroutine)
    (ts : List Task) (hN : 0 < N) (hnew : New N = some (b, gs))
    (hdisp : dispatchN b ts = some b2) :
    (∀ x ∈ pends b2.pool, x ≤ ((ts.length + N.toNat - 1) / N.toNat : Nat)) ∧
    (∀ x ∈ pends b2.pool, ∀ y ∈ pends b2.pool, x ≤ y + 1) := by
  rw [New_eq N (by omega)] at hnew
  have h2 := (Option.some.injEq _ _).mp hnew
  rw [Prod.mk.injEq] at h2
  obtain ⟨hb, hgs⟩ := h2
  have hbpool : b.pool = newPool N.toNat := by rw [← hb]
  obtain ⟨hplen, hpheap, hpidx, hpperm⟩ := newPool_spec N.toNat
  have hzero : ∀ x ∈ pends b.pool, x = 0 := by
    intro x hx
    rw [hbpool, pends_eq_smap_map] at hx
    have hx2 : x ∈ ((List.range N.toNat).map
        fun i => (⟨i, [], 0, 0⟩ : Worker)).map fun w => w.pending :=
      (hpperm.map fun w => w.pending).mem_iff.mp hx
    rw [List.map_map] at hx2
    obtain ⟨i, _, hi⟩ := List.mem_map.mp hx2
    exact hi.symm
  have hdiff0 : ∀ x ∈ pends b.pool, ∀ y ∈ pends b.pool, x ≤ y + 1 := by
    intro x hx y hy
    rw [hzero x hx, hzero y hy]
    omega
  have hlen0 : b.pool.length ≠ 0 := by
    rw [hbpool, hplen]
    omega
  obtain ⟨h2heap, h2idx, h2len, h2diff, h2sum⟩ :=
    dispatchN_spec ts b b2 (by rw [hbpool]; exact hpheap)
      (by rw [hbpool]; exact hpidx) hlen0 hdiff0 hdisp
  have hsum0 : (pends b.pool).sum = 0 := List.sum_eq_zero hzero
  have hsum2 : (pends b2.pool).sum = (ts.length : Int) := by
    rw [h2sum, hsum0]
    ring
  have hlen2 : (pends b2.pool).length = N.toNat := by
    rw [length_pends, h2len, hbpool, hplen]
  refine ⟨?_, h2diff⟩
  intro x hx
  have hfin := max_bound_of_diff (pends b2.pool) ts.length hsum2
    (by rw [hlen2]; omega) h2diff x hx
  rw [hlen2] at hfin
  exact hfin

theorem C4_witness :
    (∀ x ∈ pends (⟨[⟨1, [⟨none, 2⟩], 1, 0⟩, ⟨0, [⟨none, 1⟩, ⟨none, 3⟩], 2, 1⟩],
        [], [], 20, 2⟩ : Balancer).pool,
      x ≤ ((([⟨none, 1⟩, ⟨none, 2⟩, ⟨none, 3⟩] : List Task).length
        + (2 : Int).toNat - 1) / (2 : Int).toNat : Nat)) ∧
    (∀ x ∈ pends (⟨[⟨1, [⟨none, 2⟩], 1, 0⟩, ⟨0, [⟨none, 1⟩, ⟨none, 3⟩], 2, 1⟩],
        [], [], 20, 2⟩ : Balancer).pool,
      ∀ y ∈ pends (⟨[⟨1, [⟨none, 2⟩], 1, 0⟩, ⟨0, [⟨none, 1⟩, ⟨none, 3⟩], 2, 1⟩],
        [], [], 20, 2⟩ : Balancer).pool, x ≤ y + 1) :=
  C4_even_distribution 2 ⟨[⟨0, [], 0, 0⟩, ⟨1, [], 0, 1⟩], [], [], 20, 2⟩
    ⟨[⟨1, [⟨none, 2⟩], 1, 0⟩, ⟨0, [⟨none, 1⟩, ⟨none, 3⟩], 2, 1⟩], [], [], 20, 2⟩
    [Goroutine.worker 0 Chan.work, Goroutine.worker 1 Chan.work]
    [⟨none, 1⟩, ⟨none, 2⟩, ⟨none, 3⟩] (by decide) (by decide) (by decide)

/-- Claim C5, confirmed: on a non-empty pool satisfying the heap
invariants, `dispatch(task)` extracts a worker whose pending count is
minimal over all workers, appends the task to that worker's own inbound
queue, increments exactly that worker's pending count by one, and reinserts
the same worker: the pool keeps the same multiset of workers (same ids; the
extracted worker reappears with the task queued and pending one higher, all
others untouched). -/
theorem C5_dispatch (b : Balancer) (t : Task) (hheap : HeapD b.pool)
    (hidx : IdxB b.pool) (hne : b.pool ≠ []) :
    ∃ w b2 rest, dispatch b t = some b2 ∧
      (∀ y ∈ pends b.pool, w.pending ≤ y) ∧
      List.Perm (smap b.pool) (strip w :: rest) ∧
      List.Perm (smap b2.pool) (⟨w.id, w.tasks ++ [t], w.pending + 1, 0⟩ :: rest) ∧
      List.Perm (b2.pool.map fun u => u.id) (b.pool.map fun u => u.id) := by
  have hne' : b.pool.length ≠ 0 := by
    intro h0
    exact hne (List.length_eq_zero.mp h0)
  obtain ⟨w, b2, rest, hd, hstrip, hlen, hheap2, hidx2, _, _, _, _, hmin,
    hperm1, hperm2⟩ := dispatch_spec b t hheap hidx hne'
  refine ⟨w, b2, rest, hd, ?_, hperm1, hperm2, ?_⟩
  · intro y hy
    obtain ⟨k, hk, hwk⟩ := mem_pends b.pool y hy
    rw [← hwk]
    exact hmin k hk
  · have hids : ∀ q : List Worker, q.map (fun u => u.id)
        = (smap q).map fun u => u.id := by
      intro q
      unfold smap
      rw [List.map_map]
      rfl
    rw [hids b2.pool, hids b.pool]
    have g1 := hperm1.map fun u => u.id
    have g2 := hperm2.map fun u => u.id
    refine g2.trans ?_
    refine (List.Perm.symm ?_)
    refine g1.trans ?_
    simp [strip]

theorem C5_witness :
    ∃ w b2 rest,
      dispatch (⟨[⟨5, [], 1, 0⟩, ⟨6, [], 3, 1⟩], [], [], 10, 1⟩ : Balancer)
        ⟨some "err", 8⟩ = some b2 ∧
      (∀ y ∈ pends (⟨[⟨5, [], 1, 0⟩, ⟨6, [], 3, 1⟩], [], [], 10, 1⟩ : Balancer).pool,
        w.pending ≤ y) ∧
      List.Perm (smap (⟨[⟨5, [], 1, 0⟩, ⟨6, [], 3, 1⟩], [], [], 10, 1⟩ : Balancer).pool)
        (strip w :: rest) ∧
      List.Perm (smap b2.pool)
        (⟨w.id, w.tasks ++ [⟨some "err", 8⟩], w.pending + 1, 0⟩ :: rest) ∧
      List.Perm (b2.pool.map fun u => u.id)
        ((⟨[⟨5, [], 1, 0⟩, ⟨6, [], 3, 1⟩], [], [], 10, 1⟩ : Balancer).pool.map
          fun u => u.id) :=
  C5_dispatch ⟨[⟨5, [], 1, 0⟩, ⟨6, [], 3, 1⟩], [], [], 10, 1⟩ ⟨some "err", 8⟩
    (by decide) (by decide) (by decide)

/-- Claim C6, confirmed: the min-heap order is invariant under every pool
operation the balancer performs — the insert of `dispatch`'s reinsert and
of construction, the extract-min of `dispatch`, and the
arbitrary-removal-plus-reinsert of `completed` — and holds for the freshly
built pool. -/
theorem C6_heap_order :
    (∀ (p : List Worker) (w : Worker), HeapD p → IdxB p → HeapD (heapPush p w)) ∧
    (∀ (p : List Worker) (w : Worker) (p2 : List Worker), HeapD p → IdxB p →
      heapPop p = some (w, p2) → HeapD p2) ∧
    (∀ (b : Balancer) (t : Task) (b2 : Balancer), HeapD b.pool → IdxB b.pool →
      dispatch b t = some b2 → HeapD b2.pool) ∧
    (∀ (b : Balancer) (i : Nat) (b2 : Balancer), HeapD b.pool → IdxB b.pool →
      completed b i = some b2 → HeapD b2.pool) ∧
    (∀ n : Nat, HeapD (newPool n)) := by
  refine ⟨?_, ?_, ?_, ?_, fun n => (newPool_spec n).2.1⟩
  · intro p w hheap hidx
    exact (heapPush_spec p w hheap hidx).2.1
  · intro p w p2 hheap hidx hpop
    have hne : p.length ≠ 0 := by
      intro h0
      rw [(heapPop_none_iff p).mpr h0] at hpop
      exact absurd hpop (by simp)
    obtain ⟨w2, p2x, hpop2, _, _, hheap2, _, _, _⟩ := heapPop_spec p hheap hidx hne
    rw [hpop2] at hpop
    have h3 := (Option.some.injEq _ _).mp hpop
    rw [Prod.mk.injEq] at h3
    rw [← h3.2]
    exact hheap2
  · intro b t b2 hheap hidx hd
    have hne : b.pool.length ≠ 0 := by
      intro h0
      rw [dispatch_none_of_empty b t h0] at hd
      exact absurd hd (by simp)
    obtain ⟨w2, b2x, rest, hd2, _, _, hheap2, _, _, _, _, _, _, _, _⟩ :=
      dispatch_spec b t hheap hidx hne
    rw [hd2] at hd
    have h3 := (Option.some.injEq _ _).mp hd
    rw [← h3]
    exact hheap2
  · intro b i b2 hheap hidx hc
    have hi : i < b.pool.length := by
      by_contra hni
      rw [completed_none_of_oob b i hni] at hc
      exact absurd hc (by simp)
    obtain ⟨b2x, rest, hc2, _, hheap2, _, _, _, _, _, _, _⟩ :=
      completed_spec b i hheap hidx hi
    rw [hc2] at hc
    have h3 := (Option.some.injEq _ _).mp hc
    rw [← h3]
    exact hheap2

theorem C6_witness :
    HeapD (heapPush [⟨0, [], 0, 0⟩, ⟨1, [], 2, 1⟩] ⟨2, [], 1, 0⟩) :=
  C6_heap_order.1 [⟨0, [], 0, 0⟩, ⟨1, [], 2, 1⟩] ⟨2, [], 1, 0⟩
    (by decide) (by decide)

/-- Claim C7, confirmed: index consistency is invariant — `Pool.Swap`
updates both moved workers' `index` fields to their new positions,
`Pool.Push` sets the appended worker's `index` to its position, and every
balancer operation (push, pop, dispatch, completed, construction) preserves
`pool[w.index] == w` (stated as: the worker at each position `k` has
`index = k`). -/
theorem C7_index_consistency :
    (∀ (p : List Worker) (i j : Nat), i < p.length → j < p.length →
      (wAt (swapW p i j) i).index = i ∧ (wAt (swapW p i j) j).index = j) ∧
    (∀ (p : List Worker) (w : Worker),
      (wAt (poolPush p w) p.length).index = p.length) ∧
    (∀ (p : List Worker) (w : Worker), HeapD p → IdxB p → IdxB (heapPush p w)) ∧
    (∀ (p : List Worker) (w : Worker) (p2 : List Worker), HeapD p → IdxB p →
      heapPop p = some (w, p2) → IdxB p2) ∧
    (∀ (b : Balancer) (t : Task) (b2 : Balancer), HeapD b.pool → IdxB b.pool →
      dispatch b t = some b2 → IdxB b2.pool) ∧
    (∀ (b : Balancer) (i : Nat) (b2 : Balancer), HeapD b.pool → IdxB b.pool →
      completed b i = some b2 → IdxB b2.pool) ∧
    (∀ n : Nat, IdxB (newPool n)) := by
  refine ⟨?_, ?_, ?_, ?_, ?_, ?_, fun n => (newPool_spec n).2.2.1⟩
  · intro p i j hi hj
    constructor
    · rcases eq_or_ne i j with rfl | hij
      · rw [wAt_swapW_right p i i hi]
      · rw [wAt_swapW_left p i j hi hij]
    · rw [wAt_swapW_right p i j hj]
  · intro p w
    rw [wAt_poolPush_self]
  · intro p w hheap hidx
    exact (heapPush_spec p w hheap hidx).2.2.1
  · intro p w p2 hheap hidx hpop
    have hne : p.length ≠ 0 := by
      intro h0
      rw [(heapPop_none_iff p).mpr h0] at hpop
      exact absurd hpop (by simp)
    obtain ⟨w2, p2x, hpop2, _, _, _, hidx2, _, _⟩ := heapPop_spec p hheap hidx hne
    rw [hpop2] at hpop
    have h3 := (Option.some.injEq _ _).mp hpop
    rw [Prod.mk.injEq] at h3
    rw [← h3.2]
    exact hidx2
  · intro b t b2 hheap hidx hd
    have hne : b.pool.length ≠ 0 := by
      intro h0
      rw [dispatch_none_of_empty b t h0] at hd
      exact absurd hd (by simp)
    obtain ⟨w2, b2x, rest, hd2, _, _, _, hidx2, _, _, _, _, _, _, _⟩ :=
      dispatch_spec b t hheap hidx hne
    rw [hd2] at hd
    have h3 := (Option.some.injEq _ _).mp hd
    rw [← h3]
    exact hidx2
  · intro b i b2 hheap hidx hc
    have hi : i < b.pool.length := by
      by_contra hni
      rw [completed_none_of_oob b i hni] at hc
      exact absurd hc (by simp)
    obtain ⟨b2x, rest, hc2, _, _, hidx2, _, _, _, _, _, _⟩ :=
      completed_spec b i hheap hidx hi
    rw [hc2] at hc
    have h3 := (Option.some.injEq _ _).mp hc
    rw [← h3]
    exact hidx2

theorem C7_witness :
    (wAt (swapW [⟨0, [], 0, 0⟩, ⟨1, [], 2, 1⟩] 0 1) 0).index = 0 ∧
    (wAt (swapW [⟨0, [], 0, 0⟩, ⟨1, [], 2, 1⟩] 0 1) 1).index = 1 :=
  C7_index_consistency.1 [⟨0, [], 0, 0⟩, ⟨1, [], 2, 1⟩] 0 1
    (by decide) (by decide)

/-- Claim C8, counterexample: `New 0` succeeds (it is not rejected), and
from the resulting balancer a single dispatch step hits the empty-pool
branch of the heap pop — the panic branch is reachable through the public
interface. -/
theorem C8_counterexample :
    New 0 = some (⟨[], [], [], 0, 0⟩, ([] : List Goroutine)) ∧
    dispatch ⟨[], [], [], 0, 0⟩ ⟨none, 0⟩ = none := by
  decide

/-- Claim C8, amended: for every positive workerCount, in every state
reachable from `New`'s balancer by dispatch and completion steps the pool
is non-empty, so the dispatch step's heap pop always succeeds and its
empty-pool panic branch is unreachable. -/
theorem C8_amended (N : Int) (b0 b : Balancer) (gs : List Goroutine) (t : Task)
    (hN : 0 < N) (hnew : New N = some (b0, gs)) (hreach : Reach b0 b) :
    (dispatch b t).isSome = true := by
  rw [New_eq N (by omega)] at hnew
  have h2 := (Option.some.injEq _ _).mp hnew
  rw [Prod.mk.injEq] at h2
  have hlen0 : b0.pool.length = N.toNat := by
    rw [← h2.1]
    exact (newPool_spec N.toNat).1
  have hlen : b.pool.length = b0.pool.length := by
    unfold Reach at hreach
    induction hreach with
    | refl => rfl
    | tail hsteps hstep ih =>
      rw [step_pool_length hstep, ih]
  refine dispatch_isSome b t ?_
  rw [hlen, hlen0]
  omega

theorem C8_amended_witness :
    (dispatch (⟨[⟨0, [], 0, 0⟩], [], [], 10, 1⟩ : Balancer) ⟨none, 0⟩).isSome
      = true :=
  C8_amended 1 ⟨[⟨0, [], 0, 0⟩], [], [], 10, 1⟩ ⟨[⟨0, [], 0, 0⟩], [], [], 10, 1⟩
    [Goroutine.worker 0 Chan.work] ⟨none, 0⟩ (by decide) (by decide)
    Relation.ReflTransGen.refl

/-- Claim C9, confirmed: a worker delivers the exact value returned by the
work callable — in particular an error value `some e` is carried unmodified
to the task's delivery slot — and `completed` decrements the worker's
pending count by exactly one while touching no channel; `completed` never
receives or inspects an outcome at all, so the accounting is identical for
success and failure, with no retry or escalation. -/
theorem C9_failure_accounting :
    (∀ (s : Sys) (wid : Nat) (t : Task) (rest : List Task) (e : String),
      Goroutine.worker wid Chan.work ∈ s.gs → s.bal.work = t :: rest →
      t.fn = some e →
      workerStep (Goroutine.worker wid Chan.work) s
        = some ⟨{ s.bal with work := rest }, s.gs,
            s.delivered ++ [(t.c, some e)]⟩) ∧
    (∀ (b : Balancer) (i : Nat) (b2 : Balancer), HeapD b.pool → IdxB b.pool →
      completed b i = some b2 →
      b2.done = b.done ∧ b2.work = b.work ∧
      ∃ rest, List.Perm (pends b.pool) ((wAt b.pool i).pending :: rest) ∧
        List.Perm (pends b2.pool) (((wAt b.pool i).pending - 1) :: rest)) := by
  constructor
  · intro s wid t rest e hmem hwork hfn
    have h1 : workerStep (Goroutine.worker wid Chan.work) s
        = some ⟨{ s.bal with work := rest }, s.gs,
            s.delivered ++ [(t.c, t.fn)]⟩ := by
      rw [workerStep_work_eq, if_pos hmem, hwork]
    rw [h1, hfn]
  · intro b i b2 hheap hidx hc
    have hi : i < b.pool.length := by
      by_contra hni
      rw [completed_none_of_oob b i hni] at hc
      exact absurd hc (by simp)
    obtain ⟨b2x, rest, hc2, _, _, _, hdone, hworkx, _, _, hperm1, hperm2⟩ :=
      completed_spec b i hheap hidx hi
    rw [hc2] at hc
    have h3 := (Option.some.injEq _ _).mp hc
    subst h3
    refine ⟨hdone, hworkx, rest.map (fun u => u.pending), ?_, ?_⟩
    · rw [pends_eq_smap_map]
      have := hperm1.map fun u => u.pending
      simpa [strip] using this
    · rw [pends_eq_smap_map]
      have := hperm2.map fun u => u.pending
      simpa using this

theorem C9_witness :
    workerStep (Goroutine.worker 0 Chan.work)
      ⟨⟨[⟨0, [], 0, 0⟩], [], [⟨some "boom", 9⟩], 10, 1⟩,
        [Goroutine.worker 0 Chan.work], []⟩
      = some ⟨⟨[⟨0, [], 0, 0⟩], [], [], 10, 1⟩,
        [Goroutine.worker 0 Chan.work], [(9, some "boom")]⟩ :=
  C9_failure_accounting.1 ⟨⟨[⟨0, [], 0, 0⟩], [], [⟨some "boom", 9⟩], 10, 1⟩,
      [Goroutine.worker 0 Chan.work], []⟩ 0 ⟨some "boom", 9⟩ [] "boom"
    (by decide) rfl rfl

/-- Claim C10, confirmed: starting from `New N` with positive `N`, after
any valid trace of submissions (`Balancer.Push`) and worker-loop
iterations, draining the remaining work queue delivers, for every task,
exactly one outcome per accepted push of that task — no duplicate and no
silent drop (callables are modelled by their terminating result). -/
theorem C10_exactly_once (N : Int) (b : Balancer) (gs : List Goroutine)
    (tr : List Ev) (s : Sys) (t : Task) (hN : 0 < N)
    (hnew : New N = some (b, gs)) (hrun : run ⟨b, gs, []⟩ tr = some s) :
    countDelivered (drain 0 s) t = countPush tr t := by
  rw [New_eq N (by omega)] at hnew
  have h2 := (Option.some.injEq _ _).mp hnew
  rw [Prod.mk.injEq] at h2
  obtain ⟨hb, hgs⟩ := h2
  have hprop : ∀ wid src,
      Goroutine.worker wid src ∈ (⟨b, gs, []⟩ : Sys).gs → src = Chan.work := by
    intro wid src hmem
    have hmem2 : Goroutine.worker wid src
        ∈ (List.range N.toNat).map fun i => Goroutine.worker i Chan.work := by
      rw [hgs]
      exact hmem
    obtain ⟨i, _, hi⟩ := List.mem_map.mp hmem2
    injection hi with h1 h2
    exact h2.symm
  obtain ⟨hgsfin, hpoolfin, hcount⟩ := run_count tr ⟨b, gs, []⟩ s hrun hprop
  have hmem0 : Goroutine.worker 0 Chan.work ∈ s.gs := by
    rw [hgsfin]
    show Goroutine.worker 0 Chan.work ∈ gs
    rw [← hgs]
    refine List.mem_map.mpr ⟨0, ?_, rfl⟩
    simp
    omega
  obtain ⟨hdel, _⟩ := drainF_delivered s.bal.work.length s 0 hmem0 (le_refl _)
  show (drain 0 s).delivered.count (t.c, t.fn) = countPush tr t
  rw [show drain 0 s = drainF 0 s.bal.work.length s from rfl, hdel]
  rw [List.count_append, count_map_pair]
  have hfin := hcount t
  have hz1 : countDelivered ⟨b, gs, []⟩ t = 0 := rfl
  have hz2 : List.count t (⟨b, gs, []⟩ : Sys).bal.work = 0 := by
    show List.count t b.work = 0
    rw [← hb]
    rfl
  rw [hz1, hz2] at hfin
  show countDelivered s t + List.count t s.bal.work = countPush tr t
  omega

theorem C10_witness :
    countDelivered
      (drain 0 ⟨⟨[⟨0, [], 0, 0⟩], [], [⟨some "x", 4⟩], 10, 1⟩,
        [Goroutine.worker 0 Chan.work], [(3, none)]⟩) ⟨none, 3⟩
      = countPush [Ev.push ⟨none, 3⟩, Ev.push ⟨some "x", 4⟩,
          Ev.wstep (Goroutine.worker 0 Chan.work)] ⟨none, 3⟩ :=
  C10_exactly_once 1 ⟨[⟨0, [], 0, 0⟩], [], [], 10, 1⟩
    [Goroutine.worker 0 Chan.work]
    [Ev.push ⟨none, 3⟩, Ev.push ⟨some "x", 4⟩,
      Ev.wstep (Goroutine.worker 0 Chan.work)]
    ⟨⟨[⟨0, [], 0, 0⟩], [], [⟨some "x", 4⟩], 10, 1⟩,
      [Goroutine.worker 0 Chan.work], [(3, none)]⟩
    ⟨none, 3⟩ (by decide) (by decide) (by decide)

end balancer
